import Mathlib

/-!
Verification development for the exam-document mixer engine
(docxService: segmentation, classification, validation, answer
resolution, option shuffling, balanced key generation, variant/answer
matrix export).

The TypeScript engine is shallowly embedded: paragraph nodes are lists
of runs (each run one text fragment plus its underline property),
regular expressions are translated into deterministic matching
functions on character lists, and the random source of the
Fisher-Yates shuffle is an explicit parameter giving the drawn index
for each step.  DOM mutation becomes pure record update.
-/

set_option maxHeartbeats 1000000

namespace DocxService

/-- JavaScript whitespace class (the regex class for whitespace and the
set trimmed by trim()). -/
def isJsWs (c : Char) : Bool :=
  c = '\u0020' || c = '\u0009' || c = '\u000A' || c = '\u000B' || c = '\u000C' || c = '\u000D' ||
  c = '\u00A0' || c = '\u1680' || ('\u2000' ≤ c && c ≤ '\u200A') ||
  c = '\u2028' || c = '\u2029' || c = '\u202F' || c = '\u205F' ||
  c = '\u3000' || c = '\uFEFF'

/-- Unicode case folding restricted to the characters this document
grammar actually uses: ASCII letters plus the Vietnamese letters of the
keywords matched case-insensitively by the source regexes. -/
def foldC (c : Char) : Char :=
  if 'A' ≤ c && c ≤ 'Z' then Char.ofNat (c.toNat + 32)
  else if c = 'Â' then 'â'
  else if c = 'À' then 'à'
  else if c = 'Ỏ' then 'ỏ'
  else if c = 'Ầ' then 'ầ'
  else if c = 'Ự' then 'ự'
  else if c = 'Ậ' then 'ậ'
  else c

/-- Case-insensitive character comparison (the i regex flag). -/
def ciEq (a b : Char) : Bool := foldC a = foldC b

/-- trim(): drop JS whitespace from both ends. -/
def trimChars (cs : List Char) : List Char :=
  ((cs.dropWhile isJsWs).reverse.dropWhile isJsWs).reverse

/-- split on a newline character, as the JS split with a newline
separator used by detectType. -/
def splitLines (cs : List Char) : List (List Char) :=
  match cs with
  | [] => [[]]
  | c :: rest =>
    let ls := splitLines rest
    if c = '\n' then [] :: ls
    else
      match ls with
      | [] => [[c]]
      | l :: ls1 => (c :: l) :: ls1

/-- The option letter class of OPTION_PREFIX_REGEX: uppercase or
lowercase A through D. -/
def optLetter (c : Char) : Bool :=
  ('A' ≤ c && c ≤ 'D') || ('a' ≤ c && c ≤ 'd')

/-- The option separator class: a dot, a closing parenthesis or a
colon. -/
def sepChar (c : Char) : Bool := c = '.' || c = ')' || c = ':'

/-- Result of matching OPTION_PREFIX_REGEX, one field per capture
group plus the remainder after the match. -/
structure StrictMatch where
  pre : List Char
  letter : Char
  mid : List Char
  sep : Char
  rest : List Char
deriving DecidableEq, Repr

/-- OPTION_PREFIX_REGEX: leading whitespace, an option letter, optional
whitespace, then a separator, anchored at the start.  The match is
deterministic because the letter and separator classes are disjoint
from whitespace. -/
def matchStrict (cs : List Char) : Option StrictMatch :=
  let pre := cs.takeWhile isJsWs
  match cs.dropWhile isJsWs with
  | [] => none
  | l :: r1 =>
    if optLetter l then
      let mid := r1.takeWhile isJsWs
      match r1.dropWhile isJsWs with
      | [] => none
      | s :: r2 => if sepChar s then some ⟨pre, l, mid, s, r2⟩ else none
    else none

/-- The loose option pattern used for a marker letter split off in its
own run: whitespace, one option letter, whitespace, end of text. -/
def matchLoose (cs : List Char) : Option (List Char × Char × List Char) :=
  let pre := cs.takeWhile isJsWs
  match cs.dropWhile isJsWs with
  | [] => none
  | l :: r1 => if optLetter l && r1.all isJsWs then some (pre, l, r1) else none

/-- Attempt of KEY_REGEX_EXTRACT at the head of the text: a left angle
bracket, the letters of the key keyword case-insensitively, optional
whitespace, an equals sign, optional whitespace, then the captured
value running to the first closing angle bracket, which must exist. -/
def keyMatchAt (cs : List Char) : Option (List Char) :=
  match cs with
  | '<' :: c1 :: c2 :: c3 :: r =>
    if ciEq c1 'k' && ciEq c2 'e' && ciEq c3 'y' then
      match r.dropWhile isJsWs with
      | '=' :: r2 =>
        let r3 := r2.dropWhile isJsWs
        let g := r3.takeWhile (fun c => c ≠ '>')
        match r3.dropWhile (fun c => c ≠ '>') with
        | '>' :: _ => some g
        | _ => none
      | _ => none
    else none
  | _ => none

/-- Leftmost match of KEY_REGEX_EXTRACT: scan positions left to right
and return the first captured key value. -/
def findKeyTag : List Char → Option (List Char)
  | [] => none
  | c :: rest =>
    match keyMatchAt (c :: rest) with
    | some g => some g
    | none => findKeyTag rest

/-- Scan for an option marker of the given letter followed directly by
a separator; return the remainder after the separator of the leftmost
occurrence. -/
def findMarker (letter : Char) : List Char → Option (List Char)
  | [] => none
  | c :: rest =>
    if c = letter then
      match rest with
      | s :: r2 => if sepChar s then some r2 else findMarker letter rest
      | [] => none
    else findMarker letter rest

/-- The inline fallback regex of detectType with the dotall flag: an A
marker, then anywhere later a B marker, then anywhere later a C marker
(the gaps may span line breaks). -/
def hasInlineABC (cs : List Char) : Bool :=
  match findMarker 'A' cs with
  | none => false
  | some r1 =>
    match findMarker 'B' r1 with
    | none => false
    | some r2 => (findMarker 'C' r2).isSome

/-- Line-initial uppercase option marker: an uppercase A through D
followed directly by a dot, closing parenthesis or colon. -/
def isMcqLine (l : List Char) : Bool :=
  match l with
  | a :: s :: _ => ('A' ≤ a && a ≤ 'D') && sepChar s
  | _ => false

/-- Line-initial lowercase option marker: a lowercase a through d
followed directly by a closing parenthesis or a dot (no colon). -/
def isTfLine (l : List Char) : Bool :=
  match l with
  | a :: s :: _ => ('a' ≤ a && a ≤ 'd') && (s = ')' || s = '.')
  | _ => false

inductive QuestionType where
  | MCQ
  | TRUE_FALSE
  | SHORT_ANSWER
  | ESSAY
  | UNKNOWN
deriving DecidableEq, Repr

/-- detectType: inline key marker wins; otherwise count line-initial
uppercase and lowercase markers on trimmed lines; otherwise fall back
to the inline A-B-C marker scan; otherwise UNKNOWN. -/
def detectType (text : List Char) : QuestionType :=
  if (findKeyTag text).isSome then QuestionType.SHORT_ANSWER
  else
    let lines := (splitLines text).map trimChars
    let mcqCount := lines.countP isMcqLine
    let tfCount := lines.countP isTfLine
    if 2 ≤ mcqCount ∧ tfCount < mcqCount then QuestionType.MCQ
    else if 2 ≤ tfCount ∧ mcqCount < tfCount then QuestionType.TRUE_FALSE
    else if hasInlineABC text then QuestionType.MCQ
    else QuestionType.UNKNOWN

/-- One text run: the text of its single text element and its
underline property.  The underline field is the optional underline
element together with its optional value attribute: none means no
underline element, some none an underline element without a value,
some (some v) an underline element whose value is v.  Bold and color
run properties play no role in any of the verified behaviours and are
not modelled. -/
structure Run where
  t : List Char
  u : Option (Option String)
deriving DecidableEq, Repr

/-- A run is effectively underlined when its underline element is
present with an absent value or any value other than the none
style. -/
def runUnderlined (r : Run) : Bool :=
  match r.u with
  | none => false
  | some none => true
  | some (some v) => v ≠ "none"

/-- A paragraph-level node: an ordered list of runs. -/
structure PNode where
  runs : List Run
deriving DecidableEq, Repr

instance : Inhabited PNode := ⟨⟨[]⟩⟩

/-- textContent of a paragraph: the concatenation of its run texts. -/
def nodeText (n : PNode) : List Char :=
  (n.runs.map Run.t).flatten

/-- hasUnderline on a paragraph: some run is underlined. -/
def hasUnderlineN (n : PNode) : Bool :=
  n.runs.any runUnderlined

end DocxService
namespace DocxService

/-- Case-insensitive literal match at the head: returns the consumed
original characters and the remainder. -/
def stripCi : List Char → List Char → Option (List Char × List Char)
  | [], s => some ([], s)
  | _ :: _, [] => none
  | p :: ps, c :: cs =>
    if ciEq c p then (stripCi ps cs).map (fun pr => (c :: pr.1, pr.2)) else none

/-- QUESTION_START_REGEX: optional whitespace, one of the question
keywords (the alternation tried in source order), optional whitespace,
digits; returns the first capture group (the whole matched label) and
the optional trailing separator group. -/
def matchQuestionStart (cs : List Char) : Option (List Char × List Char) :=
  let pre := cs.takeWhile isJsWs
  let r0 := cs.dropWhile isJsWs
  let tryWord := fun (w : List Char) =>
    match stripCi w r0 with
    | none => none
    | some (consumed, r1) =>
      let sp := r1.takeWhile isJsWs
      let r2 := r1.dropWhile isJsWs
      let ds := r2.takeWhile Char.isDigit
      if ds = [] then none
      else some (pre ++ consumed ++ sp ++ ds,
        (r2.dropWhile Char.isDigit).takeWhile (fun c => isJsWs c || c = '.' || c = ':'))
  match tryWord "Câu".toList with
  | some res => some res
  | none =>
    match tryWord "Bài".toList with
    | some res => some res
    | none => tryWord "Câu hỏi".toList

/-- isQuestionStart: test the question-start pattern after stripping
leading whitespace as the source does. -/
def isQuestionStart (cs : List Char) : Bool :=
  (matchQuestionStart (cs.dropWhile isJsWs)).isSome

/-- Anchored section-header pattern: the section keyword, mandatory
whitespace, one or more roman-numeral letters, then a dot, all
case-insensitively. -/
def matchPhanRoman (t : List Char) : Bool :=
  match stripCi "PHẦN".toList t with
  | none => false
  | some (_, r1) =>
    if r1.takeWhile isJsWs = [] then false
    else
      let r2 := r1.dropWhile isJsWs
      let isRom := fun (c : Char) => foldC c = 'i' || foldC c = 'v' || foldC c = 'x'
      if r2.takeWhile isRom = [] then false
      else
        match r2.dropWhile isRom with
        | '.' :: _ => true
        | _ => false

/-- One position of the free-response keyword search: the first word,
mandatory whitespace, the second word, case-insensitively. -/
def tuLuanAt (cs : List Char) : Bool :=
  match stripCi "TỰ".toList cs with
  | none => false
  | some (_, r1) =>
    if r1.takeWhile isJsWs = [] then false
    else (stripCi "LUẬN".toList (r1.dropWhile isJsWs)).isSome

/-- Unanchored search for the free-response keyword pair. -/
def containsTuLuan : List Char → Bool
  | [] => false
  | c :: rest => tuLuanAt (c :: rest) || containsTuLuan rest

/-- isSectionHeader: anchored section-number pattern or the
free-response keywords, both on the trimmed text. -/
def isSectionHeader (cs : List Char) : Bool :=
  matchPhanRoman (trimChars cs) || containsTuLuan (trimChars cs)

/-- One position of the fourth-section search: the section keyword,
mandatory whitespace, then the roman four or the digit four. -/
def phanIVAt (cs : List Char) : Bool :=
  match stripCi "PHẦN".toList cs with
  | none => false
  | some (_, r1) =>
    if r1.takeWhile isJsWs = [] then false
    else
      let r2 := r1.dropWhile isJsWs
      if (stripCi "IV".toList r2).isSome then true
      else
        match r2 with
        | '4' :: _ => true
        | _ => false

/-- Unanchored search for the fourth-section pattern. -/
def containsPhanIV : List Char → Bool
  | [] => false
  | c :: rest => phanIVAt (c :: rest) || containsPhanIV rest

/-- isEssaySectionLabel: fourth-section pattern or free-response
keywords, searched anywhere in the label. -/
def isEssaySectionLabel (cs : List Char) : Bool :=
  containsPhanIV cs || containsTuLuan cs

/-- A top-level block node of the document body: a paragraph, the
page-setup block, or any other block (a table for instance), the
latter carrying its runs like a paragraph. -/
inductive BNode where
  | par (content : PNode)
  | sectPr
  | other (content : PNode)
deriving DecidableEq, Repr

/-- textContent of a block node. -/
def bnodeText : BNode → List Char
  | BNode.par p => nodeText p
  | BNode.sectPr => []
  | BNode.other p => nodeText p

/-- nodeName test for a paragraph. -/
def isPar : BNode → Bool
  | BNode.par _ => true
  | _ => false

/-- Label normalisation of the segmenter: trim the captured label and
rewrite an alternative question keyword to the canonical one. -/
def normalizeLabel (g1 : List Char) : List Char :=
  let t := trimChars g1
  match stripCi "Bài".toList t with
  | some (_, rest) => "Câu ".toList ++ rest.dropWhile isJsWs
  | none =>
    match stripCi "Câu hỏi".toList t with
    | some (_, rest) => "Câu ".toList ++ rest.dropWhile isJsWs
    | none => t

/-- QuestionBlock of the data model.  The random UUID id is not
modelled; xmlContent stores the block nodes themselves rather than
their XML serialisation.  The source field named for the owning
section is called sectionLabel here because its source name is a Lean
keyword. -/
structure QuestionBlock where
  originalIndex : Nat
  label : List Char
  sectionLabel : List Char
  type : QuestionType
  xmlContent : List BNode
  textContent : List Char
  isValid : Bool
  hasUnderline : Bool
  hasKeyTag : Bool
  detectedOptionNodes : Option Nat
deriving DecidableEq, Repr

/-- Construction of one QuestionBlock when a question segment is
flushed: label normalisation, key detection, type detection with the
essay-section override, the underline and option-node scan over the
paragraph nodes, then the validity rules applied in source order. -/
def mkQuestionBlock (nodes : List BNode) (textContent : List Char)
    (sectionLabel : List Char) (idx : Nat) : QuestionBlock :=
  let label :=
    match matchQuestionStart textContent with
    | some (g1, _) => normalizeLabel g1
    | none => "Câu ?".toList
  let hasKey := (findKeyTag textContent).isSome
  let qType0 := detectType textContent
  let qType :=
    if isEssaySectionLabel sectionLabel ∧ qType0 = QuestionType.UNKNOWN then QuestionType.ESSAY
    else qType0
  let hasU := nodes.any (fun n =>
    match n with
    | BNode.par p => hasUnderlineN p
    | _ => false)
  let optCount := nodes.countP (fun n =>
    match n with
    | BNode.par p =>
      decide ((qType = QuestionType.MCQ ∨ qType = QuestionType.TRUE_FALSE) ∧ nodeText p ≠ []) &&
        (matchStrict (nodeText p)).isSome
    | _ => false)
  let v1 := if qType = QuestionType.MCQ ∧ hasU = false then false else true
  let v2 := if qType = QuestionType.TRUE_FALSE ∧ hasU = false then false else v1
  let v3 := if qType = QuestionType.SHORT_ANSWER ∧ hasKey = false then false else v2
  let v4 := if qType = QuestionType.ESSAY then true else v3
  let v5 := if qType = QuestionType.UNKNOWN then false else v4
  { originalIndex := idx, label := label, sectionLabel := sectionLabel, type := qType,
    xmlContent := nodes, textContent := textContent, isValid := v5,
    hasUnderline := hasU, hasKeyTag := hasKey, detectedOptionNodes := some optCount }

inductive SegType where
  | static
  | question
deriving DecidableEq, Repr

/-- A document segment: its kind, its nodes, its concatenated plain
text, and its question data when the segment is a question. -/
structure DocSegment where
  type : SegType
  xmlContent : List BNode
  textContent : List Char
  questionData : Option QuestionBlock
deriving DecidableEq, Repr

/-- The open segment being accumulated. -/
structure CurSeg where
  type : SegType
  nodes : List BNode
  text : List Char
deriving DecidableEq, Repr

/-- Segmenter state: finished segments, finished questions, the open
segment, and the active section label. -/
structure SegAcc where
  segments : List DocSegment
  questions : List QuestionBlock
  cur : Option CurSeg
  sectionLabel : List Char
deriving DecidableEq, Repr

/-- Flush the open segment, building its QuestionBlock when it is a
question segment. -/
def finishSeg (acc : SegAcc) : SegAcc :=
  match acc.cur with
  | none => acc
  | some c =>
    match c.type with
    | SegType.question =>
      let q := mkQuestionBlock c.nodes c.text acc.sectionLabel acc.questions.length
      { segments := acc.segments ++
          [{ type := SegType.question, xmlContent := c.nodes, textContent := c.text,
             questionData := some q }],
        questions := acc.questions ++ [q], cur := none, sectionLabel := acc.sectionLabel }
    | SegType.static =>
      { segments := acc.segments ++
          [{ type := SegType.static, xmlContent := c.nodes, textContent := c.text,
             questionData := none }],
        questions := acc.questions, cur := none, sectionLabel := acc.sectionLabel }

/-- The segmenter walk over the body blocks: a paragraph matching the
section-header pattern flushes and opens a labelled static segment, a
paragraph matching the question-start pattern flushes and opens a
question segment, anything else joins the open segment (opening an
anonymous static one if none), concatenating text with a line
separator. -/
def segLoop : SegAcc → List BNode → SegAcc
  | acc, [] => acc
  | acc, b :: bs =>
    let text := bnodeText b
    if isPar b ∧ isSectionHeader text then
      let acc1 := finishSeg acc
      segLoop { segments := acc1.segments, questions := acc1.questions,
                cur := some { type := SegType.static, nodes := [b], text := text },
                sectionLabel := trimChars text } bs
    else if isPar b ∧ isQuestionStart text then
      let acc1 := finishSeg acc
      segLoop { segments := acc1.segments, questions := acc1.questions,
                cur := some { type := SegType.question, nodes := [b], text := text },
                sectionLabel := acc1.sectionLabel } bs
    else
      match acc.cur with
      | none =>
        segLoop { segments := acc.segments, questions := acc.questions,
                  cur := some { type := SegType.static, nodes := [b], text := text },
                  sectionLabel := acc.sectionLabel } bs
      | some c =>
        segLoop { segments := acc.segments, questions := acc.questions,
                  cur := some { type := c.type, nodes := c.nodes ++ [b],
                                text := c.text ++ (if c.text = [] then [] else ['\n']) ++ text },
                  sectionLabel := acc.sectionLabel } bs

/-- The main content part: its optional root body element holding the
ordered block nodes. -/
structure XmlDocument where
  body : Option (List BNode)
deriving DecidableEq, Repr

/-- The document package: its optional main content part.  The
auxiliary parts (relationships, content types, footer) do not bear on
the verified behaviours of processing. -/
structure Package where
  documentXml : Option XmlDocument
deriving DecidableEq, Repr

/-- The processed document (the file handle, raw XML string and zip
handle of the source record are I/O artefacts and are not
modelled). -/
structure ProcessedDoc where
  questions : List QuestionBlock
  segments : List DocSegment
  finalSectPr : Option BNode
deriving DecidableEq, Repr

/-- The backwards scan removing the trailing page-setup block: remove
the first page-setup node of the reversed list. -/
def removeFirstSectPr : List BNode → List BNode × Option BNode
  | [] => ([], none)
  | b :: t =>
    if b = BNode.sectPr then (t, some b)
    else
      let r := removeFirstSectPr t
      (b :: r.1, r.2)

/-- Extract the last page-setup block of the body, keeping it aside. -/
def extractFinalSectPr (bs : List BNode) : List BNode × Option BNode :=
  let r := removeFirstSectPr bs.reverse
  (r.1.reverse, r.2)

/-- processDocxFile: fail when the main content part or its body
element is absent; otherwise set the page-setup block aside and run
the segmenter. -/
def processDocxFile (pkg : Package) : Except String ProcessedDoc :=
  match pkg.documentXml with
  | none => Except.error "Không tìm thấy word/document.xml. File docx không hợp lệ."
  | some d =>
    match d.body with
    | none => Except.error "Cấu trúc file lỗi (thiếu w:body)."
    | some blocks =>
      let er := extractFinalSectPr blocks
      let acc := finishSeg
        (segLoop { segments := [], questions := [], cur := none, sectionLabel := [] } er.1)
      Except.ok { questions := acc.questions, segments := acc.segments, finalSectPr := er.2 }

inductive Severity where
  | error
  | warning
deriving DecidableEq, Repr

/-- ValidationIssue of the data model (the random question id is not
modelled). -/
structure ValidationIssue where
  questionIndex : Nat
  questionLabel : List Char
  issue : String
  suggestion : String
  severity : Severity
  questionType : Option QuestionType
deriving DecidableEq, Repr

/-- The issues emitted for one question, in source order. -/
def issuesForQuestion (index : Nat) (q : QuestionBlock) : List ValidationIssue :=
  if q.type = QuestionType.MCQ then
    (match q.detectedOptionNodes with
     | some k =>
       if k < 2 then
         [⟨index, q.label, "Các đáp án không nằm trên dòng riêng biệt.",
           "Vui lòng ngắt dòng (Enter) giữa các đáp án A, B, C, D để phần mềm có thể trộn.",
           Severity.error, some q.type⟩]
       else []
     | none => []) ++
    (if q.hasUnderline = false then
       [⟨index, q.label, "Chưa gạch chân đáp án đúng.",
         "Vui lòng gạch chân (Underline) vào đáp án đúng (A, B, C hoặc D).",
         Severity.error, some q.type⟩]
     else [])
  else if q.type = QuestionType.TRUE_FALSE then
    if q.hasUnderline = false then
      [⟨index, q.label, "Chưa có ý nào được gạch chân (Đúng).",
        "Gạch chân vào các ý Đúng (a, b, c, d). Nếu tất cả đều Sai, hãy kiểm tra lại xem đã định dạng đúng chưa.",
        Severity.warning, some q.type⟩]
    else []
  else if q.type = QuestionType.SHORT_ANSWER then
    if q.hasKeyTag = false then
      [⟨index, q.label, "Thiếu thẻ đáp án <Key=...>.",
        "Thêm thẻ <Key=Giá trị> vào cuối câu hỏi.",
        Severity.error, some q.type⟩]
    else []
  else if q.type = QuestionType.ESSAY then
    if (trimChars q.textContent).length < 5 then
      [⟨index, q.label, "Nội dung câu tự luận quá ngắn hoặc trống.",
        "Kiểm tra lại nội dung câu hỏi.",
        Severity.warning, some q.type⟩]
    else []
  else
    [⟨index, q.label, "Không nhận diện được dạng câu hỏi.",
      "Kiểm tra lại định dạng. Nếu là tự luận, hãy đảm bảo nó nằm trong phần có tiêu đề PHẦN IV hoặc TỰ LUẬN.",
      Severity.error, some q.type⟩]

/-- getValidationIssues: the issues of every question, each tagged
with its position in the list. -/
def getValidationIssues (qs : List QuestionBlock) : List ValidationIssue :=
  (qs.enum.map (fun p => issuesForQuestion p.1 p.2)).flatten

/-- Set the underline of a run to the explicit single style, replacing
any previous underline element. -/
def setRunUnderlineSingle (r : Run) : Run :=
  { t := r.t, u := some (some "single") }

/-- One node of the fix loop for choice questions: when the node text
matches the option pattern and its letter equals the fix value
case-insensitively, underline every run of the node.  Lowercasing is
modelled per character; the matched letter is ASCII, so this agrees
with the source string lowering on every comparison. -/
def fixOptionContent (fixValue : String) (p : PNode) : Bool × PNode :=
  if nodeText p ≠ [] then
    match matchStrict (nodeText p) with
    | some m =>
      if [m.letter.toLower] = fixValue.toList.map Char.toLower then
        (true, { runs := p.runs.map setRunUnderlineSingle })
      else (false, p)
    | none => (false, p)
  else (false, p)

/-- The fix loop step lifted to block nodes. -/
def fixOptionNode (fixValue : String) (b : BNode) : Bool × BNode :=
  match b with
  | BNode.par p =>
    let r := fixOptionContent fixValue p
    (r.1, BNode.par r.2)
  | BNode.other p =>
    let r := fixOptionContent fixValue p
    (r.1, BNode.other r.2)
  | BNode.sectPr => (false, BNode.sectPr)

/-- Append the generated key run to a block node. -/
def appendKeyRun (newRun : Run) : BNode → BNode
  | BNode.par p => BNode.par { runs := p.runs ++ [newRun] }
  | BNode.other p => BNode.other { runs := p.runs ++ [newRun] }
  | BNode.sectPr => BNode.sectPr

/-- applyFixToQuestion: for choice questions underline the option
node whose letter equals the fix value; for short answers append a
key run to the last node; report whether anything was modified and
return the updated block.  Parsing the stored XML back into nodes and
re-serialising are identities in this model. -/
def applyFixToQuestion (q : QuestionBlock) (fixValue : String) : Bool × QuestionBlock :=
  let nodes := q.xmlContent
  if q.type = QuestionType.MCQ ∨ q.type = QuestionType.TRUE_FALSE then
    let step := nodes.map (fixOptionNode fixValue)
    let isModified := step.any (fun r => r.1)
    let newNodes := step.map (fun r => r.2)
    if isModified then
      (true, { q with xmlContent := newNodes, isValid := true, hasUnderline := true })
    else (false, q)
  else if q.type = QuestionType.SHORT_ANSWER then
    match nodes.getLast? with
    | some last =>
      let keyText := (" <Key=" ++ fixValue ++ ">").toList
      let newNodes := nodes.dropLast ++ [appendKeyRun { t := keyText, u := none } last]
      (true, { q with
               xmlContent := newNodes
               textContent := q.textContent ++ keyText
               isValid := true
               hasKeyTag := true })
    | none => (false, q)
  else (false, q)

end DocxService
namespace DocxService

/-- One Fisher-Yates swap: exchange the elements at the two
positions. -/
def swapJS (l : List α) (i j : Nat) : List α :=
  match l[i]?, l[j]? with
  | some a, some b => (l.set i b).set j a
  | _, _ => l

/-- shuffleArray (Fisher-Yates): for each position from the last down
to one, swap it with a drawn position no greater than it.  The random
source is the explicit parameter r; the draw at step i is reduced
modulo i + 1, so every run of the source algorithm corresponds to some
r. -/
def shuffleArray (r : Nat → Nat) (l : List α) : List α :=
  ((List.range' 1 (l.length - 1)).reverse).foldl
    (fun acc i => swapJS acc i (r i % (i + 1))) l

/-- The four answer letters. -/
def optionLetters : List String := ["A", "B", "C", "D"]

/-- generateBalancedKeys: each letter replicated the quotient of the
total by four, a sample of distinct letters covering the remainder,
then a full shuffle.  The two shuffle calls draw from their own
sources r1 and r2. -/
def generateBalancedKeys (r1 r2 : Nat → Nat) (totalQuestions : Nat) : List String :=
  let baseCount := totalQuestions / 4
  let remainder := totalQuestions % 4
  let keys := optionLetters.flatMap (fun o => List.replicate baseCount o)
  let keys := if 0 < remainder then keys ++ (shuffleArray r1 optionLetters).take remainder else keys
  shuffleArray r2 keys

/-- The positional letters used by the resolver for the unreachable
fallback branch. -/
def labelsMCQresolver : List String := ["A", "B", "C", "D"]

/-- The resolver loop for multiple choice: skip nodes not matching the
option pattern; at the first underlined matching node return its
letter uppercased (the positional fallback of the source is dead code
because the pattern has just matched). -/
def mcqAnswerLoop : List PNode → String → Nat → String
  | [], ansByPos, _ => ansByPos
  | n :: rest, ansByPos, idx =>
    if (matchStrict (nodeText n)).isSome then
      if hasUnderlineN n then
        match matchStrict (nodeText n) with
        | some m => String.singleton m.letter.toUpper
        | none =>
          mcqAnswerLoop rest
            (if idx < labelsMCQresolver.length then labelsMCQresolver.getD idx ansByPos
             else ansByPos)
            (idx + 1)
      else mcqAnswerLoop rest ansByPos (idx + 1)
    else mcqAnswerLoop rest ansByPos idx

/-- getAnswerFromNodes: the key capture for short answers, the empty
string for essays, the first underlined option letter for multiple
choice, and one mark per option for true-false. -/
def getAnswerFromNodes (nodes : List PNode) (type : QuestionType)
    (originalText : List Char) : String :=
  match type with
  | QuestionType.SHORT_ANSWER =>
    match findKeyTag originalText with
    | some g => String.mk (trimChars g)
    | none => ""
  | QuestionType.ESSAY => ""
  | QuestionType.MCQ => mcqAnswerLoop nodes "" 0
  | QuestionType.TRUE_FALSE =>
    nodes.foldl (fun acc n =>
      if (matchStrict (nodeText n)).isSome then
        acc ++ (if hasUnderlineN n then "Đ" else "S")
      else acc) ""
  | QuestionType.UNKNOWN => ""

/-- The relabel attempt on one text fragment: the standard pattern is
rewritten to the new label and separator keeping the remainder, the
loose pattern rewrites the letter only.  Empty fragments are skipped.
The blue-bold styling applied by the source is outside the model. -/
def relabelRun (newLabel : List Char) (sep : Char) (r : Run) : Option Run :=
  if r.t = [] then none
  else
    match matchStrict r.t with
    | some m => some { t := m.pre ++ newLabel ++ [sep] ++ m.rest, u := r.u }
    | none =>
      match matchLoose r.t with
      | some (pre, _, tail) => some { t := pre ++ newLabel ++ tail, u := r.u }
      | none => none

/-- replaceOptionLabel traversal: rewrite the first fragment accepting
the relabel attempt, in document order. -/
def relabelRuns (newLabel : List Char) (sep : Char) : List Run → List Run
  | [] => []
  | r :: rs =>
    match relabelRun newLabel sep r with
    | some r2 => r2 :: rs
    | none => r :: relabelRuns newLabel sep rs

/-- replaceOptionLabel on a node. -/
def replaceOptionLabel (newLabel : List Char) (sep : Char) (n : PNode) : PNode :=
  ⟨relabelRuns newLabel sep n.runs⟩

/-- State of the option-detection pass of the shuffle: collected
option positions, the position of the underlined correct option (for
multiple choice), and the last separator seen. -/
structure DetectSt where
  optionIndices : List Nat
  correctIdx : Option Nat
  sep : Char
deriving DecidableEq, Repr

/-- One node of the option-detection pass: a strict match records the
position and the separator, a loose match records the position
only. -/
def detectStep (type : QuestionType) (st : DetectSt) (i : Nat) (n : PNode) : DetectSt :=
  let text := nodeText n
  match matchStrict text with
  | some m =>
    { optionIndices := st.optionIndices ++ [i]
      correctIdx :=
        if type = QuestionType.MCQ ∧ hasUnderlineN n then some i else st.correctIdx
      sep := m.sep }
  | none =>
    if (matchLoose text).isSome then
      { optionIndices := st.optionIndices ++ [i]
        correctIdx :=
          if type = QuestionType.MCQ ∧ hasUnderlineN n then some i else st.correctIdx
        sep := st.sep }
    else st

/-- The option-detection pass over the node list with its running
position. -/
def detectGo (type : QuestionType) : Nat → List PNode → DetectSt → DetectSt
  | _, [], st => st
  | i, n :: ns, st => detectGo type (i + 1) ns (detectStep type st i n)

/-- The option-detection pass from position zero (the source default
separator is the dot). -/
def detectOptions (type : QuestionType) (nodes : List PNode) : DetectSt :=
  detectGo type 0 nodes { optionIndices := [], correctIdx := none, sep := '.' }

/-- The relabeling tables (six visible letters). -/
def labelsMCQ : List (List Char) :=
  ["A".toList, "B".toList, "C".toList, "D".toList, "E".toList, "F".toList]

def labelsTF : List (List Char) :=
  ["a".toList, "b".toList, "c".toList, "d".toList, "e".toList, "f".toList]

/-- The label for a position: out of table, JS reads undefined and the
template literal prints it as that word. -/
def labelAt (type : QuestionType) (idx : Nat) : List Char :=
  (if type = QuestionType.MCQ then labelsMCQ else labelsTF).getD idx "undefined".toList

/-- The target-position table, defaulting to zero for any other
label. -/
def targetMap (s : String) : Nat :=
  if s = "A" then 0 else if s = "B" then 1 else if s = "C" then 2
  else if s = "D" then 3 else 0

/-- The pinning loop: position the correct node at the target
position, filling the other positions with the shuffled distractors in
order (the source reads a fresh distractor per other position, falling
back to the correct node if the pool were exhausted). -/
def placePinned (correct : PNode) (sd : List PNode) (tIdx k : Nat) : List PNode :=
  (List.range k).map (fun i =>
    if i = tIdx then correct
    else sd.getD (if i < tIdx then i else i - 1) correct)

/-- shuffleQuestionOptions: detect the option positions; fewer than
two leaves the list unchanged; for multiple choice with a target label
and a detected correct option, pin the correct node at the target
position (reduced modulo the option count) among shuffled distractors,
otherwise shuffle the whole option pool; relabel each option to its
new position (the dot separator forced for multiple choice); finally
write the options back at the original option positions.  A missing
target label models both an absent argument and the falsy empty
string.  The source filters distractor nodes by object identity,
which coincides with position inequality because the parsed nodes are
pairwise distinct objects. -/
def shuffleQuestionOptions (r : Nat → Nat) (nodes : List PNode) (type : QuestionType)
    (targetLabel : Option String) : List PNode :=
  if type = QuestionType.ESSAY then nodes
  else
    let st := detectOptions type nodes
    if st.optionIndices.length < 2 then nodes
    else
      let optionNodes := st.optionIndices.map (fun i => nodes.getD i default)
      let shuffledNodes :=
        match targetLabel, st.correctIdx with
        | some t, some ci =>
          if type = QuestionType.MCQ then
            let correctNode := nodes.getD ci default
            let distractorIdxs := st.optionIndices.filter (fun j => j ≠ ci)
            let shuffledDistractors :=
              shuffleArray r (distractorIdxs.map (fun i => nodes.getD i default))
            let tIdx0 := targetMap t
            let tIdx := if optionNodes.length ≤ tIdx0 then tIdx0 % optionNodes.length else tIdx0
            placePinned correctNode shuffledDistractors tIdx optionNodes.length
          else shuffleArray r optionNodes
        | _, _ => shuffleArray r optionNodes
      let sepToUse := if type = QuestionType.MCQ then '.' else st.sep
      let relabeled :=
        shuffledNodes.enum.map (fun p => replaceOptionLabel (labelAt type p.1) sepToUse p.2)
      (st.optionIndices.zip relabeled).foldl (fun acc pr => acc.set pr.1 pr.2) nodes

/-- One generated variant of the answer log: its code and its answer
map.  The source stores the code as the decimal string of the number
and compares and sorts codes through their numeric value; the model
keeps the number itself. -/
structure VariantAnswers where
  code : Nat
  answers : Nat → Option String

/-- The variant loop of generateVariants restricted to what it
contributes to the answer artefact: variant i of 1..count gets code
startCode + i - 1 and records its answer map; the per-question answer
strings (computed by shuffling and resolving the rendered nodes) enter
through the recordAns parameter, the map of variant i being recordAns
i. -/
def generateVariantsAnswerLog (recordAns : Nat → Nat → Option String)
    (count startCode : Nat) : List VariantAnswers :=
  (List.range count).map (fun k => { code := startCode + k, answers := recordAns (k + 1) })

/-- The numeric ascending sort of the variant codes. -/
def sortVariantCodes (codes : List Nat) : List Nat :=
  codes.mergeSort (fun a b => a ≤ b)

/-- One row of the exported answer table: the question number and one
cell per variant code column. -/
structure ExcelRow where
  stt : Nat
  cells : List (Nat × String)

/-- The answer-matrix construction: rows one to the question total;
columns the variant codes sorted ascending; each cell the looked-up
variant answer at the row index, or empty when absent. -/
def buildExcelRows (avs : List VariantAnswers) (totalQuestions : Nat) : List ExcelRow :=
  let codes := sortVariantCodes (avs.map (fun v => v.code))
  (List.range totalQuestions).map (fun j =>
    { stt := j + 1
      cells := codes.filterMap (fun code =>
        match avs.find? (fun v => v.code == code) with
        | some v => some (code, (v.answers (j + 1)).getD "")
        | none => none) })

/-- The strip attempt inverse to the relabel attempt: remove the
letter, inner whitespace and separator of a standard match, or the
letter of a loose match, keeping everything else.  This is the formal
reading of option content ignoring the label prefix. -/
def stripRun (r : Run) : Option Run :=
  if r.t = [] then none
  else
    match matchStrict r.t with
    | some m => some { t := m.pre ++ m.rest, u := r.u }
    | none =>
      match matchLoose r.t with
      | some (pre, _, tail) => some { t := pre ++ tail, u := r.u }
      | none => none

/-- Strip the first fragment accepting the strip attempt, mirroring
the relabel traversal. -/
def stripRuns : List Run → List Run
  | [] => []
  | r :: rs =>
    match stripRun r with
    | some r2 => r2 :: rs
    | none => r :: stripRuns rs

/-- Option content ignoring the label prefix, at node level. -/
def contentIgnoringLabel (n : PNode) : PNode :=
  ⟨stripRuns n.runs⟩

/-- Count of inline uppercase option markers (an uppercase option
letter directly followed by a separator) in a character list; stated
from the specification wording for the classification fallback. -/
def countUppercaseMarkers : List Char → Nat
  | [] => 0
  | c :: rest =>
    (if (('A' ≤ c && c ≤ 'D') &&
        (match rest with
         | s :: _ => sepChar s
         | [] => false)) = true then 1 else 0) + countUppercaseMarkers rest

/-- Specification wording of the classification fallback condition: a
single line of the text carries an inline run of at least three
uppercase option markers. -/
def specSingleLineMarkerRun (text : List Char) : Bool :=
  (splitLines text).any (fun l => 3 ≤ countUppercaseMarkers l)

end DocxService
namespace DocxService

/-- The drawn-from-zero random source used for concrete runs. -/
def rZero : Nat → Nat := fun _ => 0


/-- Test of the resolver scan: a node matching the option pattern and
underlined. -/
def optUnderlined (n : PNode) : Bool :=
  (matchStrict (nodeText n)).isSome && hasUnderlineN n

/-- The multiple-choice scenario question: four options with the third
underlined. -/
def exC1nodes : List PNode :=
  [⟨[⟨"Câu 1: tính".toList, none⟩]⟩,
   ⟨[⟨"A. opt".toList, none⟩]⟩,
   ⟨[⟨"B. opt".toList, none⟩]⟩,
   ⟨[⟨"C. opt".toList, some (some "single")⟩]⟩,
   ⟨[⟨"D. opt".toList, none⟩]⟩]

/-- A multiple-choice question block with two options A and B, used to
exercise the fix function at a letter no option carries. -/
def exC10q : QuestionBlock :=
  { originalIndex := 0, label := "Câu 1".toList, sectionLabel := [], type := QuestionType.MCQ,
    xmlContent := [BNode.par ⟨[⟨"A. 1".toList, none⟩]⟩, BNode.par ⟨[⟨"B. 2".toList, none⟩]⟩],
    textContent := "Câu 1: x\nA. 1\nB. 2".toList, isValid := false, hasUnderline := false,
    hasKeyTag := false, detectedOptionNodes := some 2 }

/-- The number of failing validity rules of a question, one per issue
the validator emits. -/
def numFailingRules (q : QuestionBlock) : Nat :=
  if q.type = QuestionType.MCQ then
    (match q.detectedOptionNodes with
     | some k => if k < 2 then 1 else 0
     | none => 0) + (if q.hasUnderline = false then 1 else 0)
  else if q.type = QuestionType.TRUE_FALSE then (if q.hasUnderline = false then 1 else 0)
  else if q.type = QuestionType.SHORT_ANSWER then (if q.hasKeyTag = false then 1 else 0)
  else if q.type = QuestionType.ESSAY then
    (if (trimChars q.textContent).length < 5 then 1 else 0)
  else 1

/-- A paragraph node of a question that is underlined. -/
def isUnderlinedPar : BNode → Bool
  | BNode.par p => hasUnderlineN p
  | _ => false

/-- Question nodes whose stem paragraph is underlined while the four
options sit inline on one single further node. -/
def exC6nodes : List BNode :=
  [BNode.par ⟨[⟨"Câu 1: x".toList, some (some "single")⟩]⟩,
   BNode.par ⟨[⟨"A. 1 B. 2 C. 3 D. 4".toList, none⟩]⟩]

/-- The concatenated plain text of those question nodes. -/
def exC6text : List Char := "Câu 1: x\nA. 1 B. 2 C. 3 D. 4".toList

/-- An essay question block whose text is below the length
threshold. -/
def exC7q : QuestionBlock :=
  { originalIndex := 0, label := "Câu 9".toList, sectionLabel := "PHẦN IV. TỰ LUẬN".toList,
    type := QuestionType.ESSAY,
    xmlContent := [BNode.par ⟨[⟨"ab".toList, none⟩]⟩],
    textContent := "ab".toList, isValid := true, hasUnderline := false,
    hasKeyTag := false, detectedOptionNodes := some 0 }

/-- A node the shuffle detection collects: its text matches the strict
or the loose option pattern. -/
def isOptionNode (n : PNode) : Bool :=
  (matchStrict (nodeText n)).isSome || (matchLoose (nodeText n)).isSome

/-- The option positions the detection pass collects, starting at a
given position. -/
def collectOpt : Nat → List PNode → List Nat
  | _, [] => []
  | i, n :: ns => (if isOptionNode n then [i] else []) ++ collectOpt (i + 1) ns


/-- A five-option multiple-choice scenario: four uppercase options, a
fifth loose lowercase option, no underline. -/
def exC2five : List PNode :=
  [⟨[⟨"Câu 1: tính".toList, none⟩]⟩,
   ⟨[⟨"A. p".toList, none⟩]⟩,
   ⟨[⟨"B. q".toList, none⟩]⟩,
   ⟨[⟨"C. r".toList, none⟩]⟩,
   ⟨[⟨"D. s".toList, none⟩]⟩,
   ⟨[⟨"a) t".toList, none⟩]⟩]

/-- A single-option multiple-choice scenario: one underlined option B
after the stem. -/
def exC3one : List PNode :=
  [⟨[⟨"Câu 1: giải".toList, none⟩]⟩,
   ⟨[⟨"B. x".toList, some (some "single")⟩]⟩]

end DocxService

namespace DocxService

theorem cons_set_perm {α : Type} {b x : α} :
    ∀ (t : List α) (m : Nat), t[m]? = some b → (b :: t.set m x).Perm (x :: t) := by
  intro t
  induction t with
  | nil => intro m h; simp at h
  | cons c s ih =>
    intro m h
    cases m with
    | zero =>
      simp at h
      subst h
      exact List.Perm.swap x c s
    | succ m1 =>
      simp at h
      have h2 := ih m1 h
      have e : (c :: s).set (m1 + 1) x = c :: s.set m1 x := rfl
      rw [e]
      exact (List.Perm.swap c b _).trans ((h2.cons c).trans (List.Perm.swap x c s))

theorem set_set_perm {α : Type} :
    ∀ (l : List α) (i j : Nat) (a b : α), l[i]? = some a → l[j]? = some b →
      ((l.set i b).set j a).Perm l := by
  intro l
  induction l with
  | nil => intro i j a b h _; simp at h
  | cons c t ih =>
    intro i j a b hi hj
    cases i with
    | zero =>
      simp at hi
      subst hi
      cases j with
      | zero =>
        simp at hj
        subst hj
        simp
      | succ j1 =>
        simp at hj
        have e : ((c :: t).set 0 b).set (j1 + 1) c = b :: t.set j1 c := rfl
        rw [e]
        exact cons_set_perm t j1 hj
    | succ i1 =>
      simp at hi
      cases j with
      | zero =>
        simp at hj
        subst hj
        have e : ((c :: t).set (i1 + 1) c).set 0 a = a :: t.set i1 c := rfl
        rw [e]
        exact cons_set_perm t i1 hi
      | succ j1 =>
        simp at hj
        have e : ((c :: t).set (i1 + 1) b).set (j1 + 1) a = c :: (t.set i1 b).set j1 a := rfl
        rw [e]
        exact (ih i1 j1 a b hi hj).cons c

end DocxService
namespace DocxService

theorem swapJS_perm {α : Type} (l : List α) (i j : Nat) : (swapJS l i j).Perm l := by
  unfold swapJS
  cases hi : l[i]? with
  | none => exact List.Perm.refl l
  | some a =>
    cases hj : l[j]? with
    | none => exact List.Perm.refl l
    | some b => exact set_set_perm l i j a b hi hj

theorem foldl_swap_perm {α : Type} (r : Nat → Nat) :
    ∀ (idxs : List Nat) (l : List α),
      (idxs.foldl (fun acc i => swapJS acc i (r i % (i + 1))) l).Perm l := by
  intro idxs
  induction idxs with
  | nil => intro l; exact List.Perm.refl l
  | cons i rest ih =>
    intro l
    have h1 := ih (swapJS l i (r i % (i + 1)))
    exact h1.trans (swapJS_perm l i (r i % (i + 1)))

theorem shuffleArray_perm {α : Type} (r : Nat → Nat) (l : List α) :
    (shuffleArray r l).Perm l := by
  unfold shuffleArray
  exact foldl_swap_perm r _ l

theorem shuffleArray_length {α : Type} (r : Nat → Nat) (l : List α) :
    (shuffleArray r l).length = l.length :=
  (shuffleArray_perm r l).length_eq

theorem count_eq_one_of_nodup_mem {α : Type} [DecidableEq α] {l : List α} {a : α}
    (hnd : l.Nodup) (h : a ∈ l) : l.count a = 1 := by
  induction l with
  | nil => simp at h
  | cons b t ih =>
    rw [List.count_cons]
    rcases List.mem_cons.mp h with rfl | hmem
    · rw [List.count_eq_zero_of_not_mem (by simpa using (List.nodup_cons.mp hnd).1)]
      simp
    · rw [ih (List.nodup_cons.mp hnd).2 hmem]
      have hne : ¬(b = a) := by
        intro he
        exact (List.nodup_cons.mp hnd).1 (he ▸ hmem)
      simp [hne]

theorem countP_contains_eq_length {α : Type} [DecidableEq α] {l opts : List α}
    (hsub : ∀ x ∈ l, x ∈ opts) (hl : l.Nodup) (ho : opts.Nodup) :
    opts.countP (fun o => decide (o ∈ l)) = l.length := by
  rw [List.countP_eq_length_filter]
  have hperm : (opts.filter (fun o => decide (o ∈ l))).Perm l := by
    rw [List.perm_iff_count]
    intro a
    by_cases hal : a ∈ l
    · rw [List.count_filter (by simpa using hal)]
      rw [count_eq_one_of_nodup_mem ho (hsub a hal), count_eq_one_of_nodup_mem hl hal]
    · rw [List.count_eq_zero_of_not_mem hal,
        List.count_eq_zero_of_not_mem
          (fun hmem => hal (by simpa using (List.mem_filter.mp hmem).2))]
  exact hperm.length_eq

end DocxService

namespace DocxService

theorem generateBalancedKeys_eq (r1 r2 : Nat → Nat) (n : Nat) :
    generateBalancedKeys r1 r2 n =
      shuffleArray r2
        ((optionLetters.flatMap (fun o => List.replicate (n / 4) o)) ++
          (if 0 < n % 4 then (shuffleArray r1 optionLetters).take (n % 4) else [])) := by
  by_cases h : 0 < n % 4 <;> simp [generateBalancedKeys, h]

/-- C4: for every total and every random source, generateBalancedKeys
returns exactly that many letters, all drawn from the four answer
letters; each letter appears the quotient of the total by four times
or once more; and exactly total mod 4 letters carry the extra
occurrence (the extras being pairwise distinct letters). -/
theorem generateBalancedKeys_balanced (r1 r2 : Nat → Nat) (n : Nat) :
    (generateBalancedKeys r1 r2 n).length = n ∧
    (generateBalancedKeys r1 r2 n).all (fun k => decide (k ∈ optionLetters)) = true ∧
    ((generateBalancedKeys r1 r2 n).count "A" = n / 4 ∨
      (generateBalancedKeys r1 r2 n).count "A" = n / 4 + 1) ∧
    ((generateBalancedKeys r1 r2 n).count "B" = n / 4 ∨
      (generateBalancedKeys r1 r2 n).count "B" = n / 4 + 1) ∧
    ((generateBalancedKeys r1 r2 n).count "C" = n / 4 ∨
      (generateBalancedKeys r1 r2 n).count "C" = n / 4 + 1) ∧
    ((generateBalancedKeys r1 r2 n).count "D" = n / 4 ∨
      (generateBalancedKeys r1 r2 n).count "D" = n / 4 + 1) ∧
    optionLetters.countP
      (fun o => (generateBalancedKeys r1 r2 n).count o == n / 4 + 1) = n % 4 := by
  set base := optionLetters.flatMap (fun o => List.replicate (n / 4) o) with hB
  set extra := (if 0 < n % 4 then (shuffleArray r1 optionLetters).take (n % 4) else []) with hE
  have hperm : (generateBalancedKeys r1 r2 n).Perm (base ++ extra) := by
    rw [generateBalancedKeys_eq r1 r2 n]
    exact shuffleArray_perm r2 (base ++ extra)
  have hperm2 : (shuffleArray r1 optionLetters).Perm optionLetters :=
    shuffleArray_perm r1 optionLetters
  have hlen4 : (shuffleArray r1 optionLetters).length = 4 := by
    rw [hperm2.length_eq]; rfl
  have hnd : extra.Nodup := by
    rw [hE]
    by_cases h : 0 < n % 4
    · rw [if_pos h]
      exact (List.take_sublist _ _).nodup (hperm2.symm.nodup (by decide))
    · rw [if_neg h]; exact List.nodup_nil
  have hsub : ∀ x ∈ extra, x ∈ optionLetters := by
    intro x hx
    rw [hE] at hx
    by_cases h : 0 < n % 4
    · rw [if_pos h] at hx
      exact hperm2.mem_iff.mp (List.mem_of_mem_take hx)
    · rw [if_neg h] at hx; simp at hx
  have hlenx : extra.length = n % 4 := by
    rw [hE]
    by_cases h : 0 < n % 4
    · rw [if_pos h, List.length_take, hlen4]
      have := Nat.mod_lt n (y := 4) (by norm_num)
      omega
    · rw [if_neg h]; simp; omega
  have hbaselen : base.length = n / 4 * 4 := by
    rw [hB]
    simp [optionLetters, List.flatMap]
    omega
  have hcount : ∀ o : String,
      (generateBalancedKeys r1 r2 n).count o = base.count o + extra.count o := by
    intro o
    rw [hperm.count_eq, List.count_append]
  have hbasecount : ∀ o ∈ optionLetters, base.count o = n / 4 := by
    intro o ho
    rw [hB]
    fin_cases ho <;>
      simp [optionLetters, List.flatMap, List.count_append, List.count_replicate]
  have hext01 : ∀ o : String, extra.count o = if o ∈ extra then 1 else 0 := by
    intro o
    by_cases h : o ∈ extra
    · rw [if_pos h]; exact count_eq_one_of_nodup_mem hnd h
    · rw [if_neg h]; exact List.count_eq_zero_of_not_mem h
  have hperletter : ∀ o ∈ optionLetters,
      (generateBalancedKeys r1 r2 n).count o = n / 4 ∨
      (generateBalancedKeys r1 r2 n).count o = n / 4 + 1 := by
    intro o ho
    rw [hcount o, hbasecount o ho, hext01 o]
    by_cases h : o ∈ extra
    · right; rw [if_pos h]
    · left; rw [if_neg h]; omega
  refine ⟨?_, ?_, hperletter "A" (by decide), hperletter "B" (by decide),
    hperletter "C" (by decide), hperletter "D" (by decide), ?_⟩
  · rw [hperm.length_eq, List.length_append, hbaselen, hlenx]
    omega
  · rw [List.all_eq_true]
    intro k hk
    have hk2 : k ∈ base ++ extra := hperm.mem_iff.mp hk
    simp only [decide_eq_true_eq]
    rcases List.mem_append.mp hk2 with h | h
    · rw [hB] at h
      obtain ⟨a, ha, hrep⟩ := List.mem_flatMap.mp h
      rwa [List.eq_of_mem_replicate hrep]
    · exact hsub k h
  · have hc : optionLetters.countP
        (fun o => (generateBalancedKeys r1 r2 n).count o == n / 4 + 1) =
        optionLetters.countP (fun o => decide (o ∈ extra)) := by
      apply List.countP_congr
      intro o ho
      rw [hcount o, hbasecount o ho, hext01 o]
      simp only [beq_iff_eq, decide_eq_true_eq]
      by_cases h : o ∈ extra
      · rw [if_pos h]; simp [h]
      · rw [if_neg h]; simp [h]
    rw [hc, countP_contains_eq_length hsub hnd (by decide)]
    exact hlenx

end DocxService
namespace DocxService

theorem mcqAnswerLoop_find :
    ∀ (ns : List PNode) (acc : String) (idx : Nat) (nd : PNode),
      ns.find? optUnderlined = some nd →
      ∃ m, matchStrict (nodeText nd) = some m ∧
        mcqAnswerLoop ns acc idx = String.singleton m.letter.toUpper := by
  intro ns
  induction ns with
  | nil => intro acc idx nd h; simp at h
  | cons n rest ih =>
    intro acc idx nd h
    by_cases h1 : (matchStrict (nodeText n)).isSome
    · by_cases h2 : hasUnderlineN n
      · have hp : optUnderlined n = true := by simp [optUnderlined, h1, h2]
        rw [List.find?_cons_of_pos _ hp] at h
        have hnd : n = nd := Option.some.inj h
        subst hnd
        cases hm : matchStrict (nodeText n) with
        | none => rw [hm] at h1; simp at h1
        | some m =>
          refine ⟨m, rfl, ?_⟩
          simp [mcqAnswerLoop, hm, h2]
      · have hp : optUnderlined n = false := by simp [optUnderlined, h2]
        rw [List.find?_cons_of_neg _ (by simp [hp])] at h
        obtain ⟨m, hm, he⟩ := ih acc (idx + 1) nd h
        refine ⟨m, hm, ?_⟩
        rw [← he]
        simp [mcqAnswerLoop, h1, h2]
    · have hp : optUnderlined n = false := by simp [optUnderlined, h1]
      rw [List.find?_cons_of_neg _ (by simp [hp])] at h
      obtain ⟨m, hm, he⟩ := ih acc idx nd h
      refine ⟨m, hm, ?_⟩
      rw [← he]
      simp [mcqAnswerLoop, h1]

/-- C1: resolving a multiple-choice question scans the nodes in
document order, and at the first node that both matches the option
pattern and carries the underline it returns that node's parsed letter
uppercased.  (Whenever the pattern test has passed the letter parses,
so the positional fallback of the source never decides the result.) -/
theorem getAnswer_mcq_first_underlined (nodes : List PNode) (txt : List Char) (nd : PNode)
    (h : nodes.find? optUnderlined = some nd) :
    ∃ m, matchStrict (nodeText nd) = some m ∧
      getAnswerFromNodes nodes QuestionType.MCQ txt = String.singleton m.letter.toUpper :=
  mcqAnswerLoop_find nodes "" 0 nd h

theorem getAnswer_mcq_first_underlined_witness :
    exC1nodes.find? optUnderlined = some ⟨[⟨"C. opt".toList, some (some "single")⟩]⟩ ∧
    getAnswerFromNodes exC1nodes QuestionType.MCQ [] = "C" := by
  have hfind : exC1nodes.find? optUnderlined =
      some ⟨[⟨"C. opt".toList, some (some "single")⟩]⟩ := by decide
  refine ⟨hfind, ?_⟩
  obtain ⟨m, hm, he⟩ := getAnswer_mcq_first_underlined exC1nodes [] _ hfind
  have hm2 : matchStrict (nodeText ⟨[⟨"C. opt".toList, some (some "single")⟩]⟩) =
      some ⟨[], 'C', [], '.', " opt".toList⟩ := by decide
  rw [hm2] at hm
  cases hm
  rw [he]
  decide

theorem applyFixToQuestion_choice_eq (q : QuestionBlock) (v : String)
    (h1 : q.type = QuestionType.MCQ ∨ q.type = QuestionType.TRUE_FALSE) :
    applyFixToQuestion q v =
      (if (q.xmlContent.map (fixOptionNode v)).any (fun r => r.1) then
        (true, { q with
                 xmlContent := (q.xmlContent.map (fixOptionNode v)).map (fun r => r.2)
                 isValid := true
                 hasUnderline := true })
      else (false, q)) := by
  unfold applyFixToQuestion
  rw [if_pos h1]

theorem applyFixToQuestion_other_eq (q : QuestionBlock) (v : String)
    (h1 : ¬(q.type = QuestionType.MCQ ∨ q.type = QuestionType.TRUE_FALSE))
    (h2 : q.type ≠ QuestionType.SHORT_ANSWER) :
    applyFixToQuestion q v = (false, q) := by
  unfold applyFixToQuestion
  rw [if_neg h1, if_neg h2]

theorem applyFixToQuestion_sa_nil (q : QuestionBlock) (v : String)
    (h1 : ¬(q.type = QuestionType.MCQ ∨ q.type = QuestionType.TRUE_FALSE))
    (h2 : q.type = QuestionType.SHORT_ANSWER) (h3 : q.xmlContent = []) :
    applyFixToQuestion q v = (false, q) := by
  unfold applyFixToQuestion
  rw [if_neg h1, if_pos h2, h3]
  rfl

theorem fixOptionContent_false (v : String) (p : PNode)
    (h : ∀ m, matchStrict (nodeText p) = some m →
      [m.letter.toLower] ≠ v.toList.map Char.toLower) :
    fixOptionContent v p = (false, p) := by
  cases hm : matchStrict (nodeText p) with
  | none =>
    unfold fixOptionContent
    by_cases hne : nodeText p ≠ []
    · rw [if_pos hne, hm]
    · rw [if_neg hne]
  | some m =>
    unfold fixOptionContent
    by_cases hne : nodeText p ≠ []
    · rw [if_pos hne, hm]
      change (if [m.letter.toLower] = v.toList.map Char.toLower then
        (true, ({ runs := p.runs.map setRunUnderlineSingle } : PNode)) else (false, p)) = (false, p)
      exact if_neg (h m hm)
    · rw [if_neg hne]

theorem fixOptionNode_false (v : String) (b : BNode)
    (h : ∀ m, matchStrict (bnodeText b) = some m →
      [m.letter.toLower] ≠ v.toList.map Char.toLower) :
    fixOptionNode v b = (false, b) := by
  cases b with
  | sectPr => rfl
  | par p =>
    show ((fixOptionContent v p).1, BNode.par (fixOptionContent v p).2) = (false, BNode.par p)
    rw [fixOptionContent_false v p h]
  | other p =>
    show ((fixOptionContent v p).1, BNode.other (fixOptionContent v p).2) = (false, BNode.other p)
    rw [fixOptionContent_false v p h]

/-- C10: whenever applyFixToQuestion reports no modification the
question block is returned unchanged in every field; in particular it
reports no modification for a choice question none of whose
option-pattern nodes carries the fix letter, and for a short-answer
question with no content nodes. -/
theorem applyFixToQuestion_false_unchanged (q : QuestionBlock) (v : String) :
    ((applyFixToQuestion q v).1 = false → (applyFixToQuestion q v).2 = q) ∧
    ((q.type = QuestionType.MCQ ∨ q.type = QuestionType.TRUE_FALSE) →
      (∀ b ∈ q.xmlContent, ∀ m, matchStrict (bnodeText b) = some m →
        [m.letter.toLower] ≠ v.toList.map Char.toLower) →
      (applyFixToQuestion q v).1 = false) ∧
    (q.type = QuestionType.SHORT_ANSWER → q.xmlContent = [] →
      (applyFixToQuestion q v).1 = false) := by
  refine ⟨?_, ?_, ?_⟩
  · intro hf
    by_cases h1 : q.type = QuestionType.MCQ ∨ q.type = QuestionType.TRUE_FALSE
    · rw [applyFixToQuestion_choice_eq q v h1] at hf ⊢
      cases hany : (q.xmlContent.map (fixOptionNode v)).any (fun r => r.1) with
      | true => simp [hany] at hf
      | false => simp [hany]
    · by_cases h2 : q.type = QuestionType.SHORT_ANSWER
      · unfold applyFixToQuestion at hf ⊢
        rw [if_neg h1, if_pos h2] at hf ⊢
        cases hlast : q.xmlContent.getLast? with
        | some last => rw [hlast] at hf; simp at hf
        | none => rfl
      · rw [applyFixToQuestion_other_eq q v h1 h2]
  · intro h1 hno
    rw [applyFixToQuestion_choice_eq q v h1]
    have hmap : q.xmlContent.map (fixOptionNode v) = q.xmlContent.map (fun b => (false, b)) :=
      List.map_congr_left (fun b hb => fixOptionNode_false v b (hno b hb))
    rw [hmap]
    simp
  · intro h2 h3
    have h1 : ¬(q.type = QuestionType.MCQ ∨ q.type = QuestionType.TRUE_FALSE) := by
      rw [h2]; rintro (h | h) <;> simp at h
    rw [applyFixToQuestion_sa_nil q v h1 h2 h3]

theorem applyFixToQuestion_false_unchanged_witness :
    (applyFixToQuestion exC10q "C").1 = false ∧ (applyFixToQuestion exC10q "C").2 = exC10q := by
  have h := applyFixToQuestion_false_unchanged exC10q "C"
  have hno : ∀ b ∈ exC10q.xmlContent, ∀ m, matchStrict (bnodeText b) = some m →
      [m.letter.toLower] ≠ "C".toList.map Char.toLower := by
    intro b hb m hm
    fin_cases hb
    · rw [show matchStrict (bnodeText (BNode.par ⟨[⟨"A. 1".toList, none⟩]⟩)) =
          some ⟨[], 'A', [], '.', " 1".toList⟩ from by decide] at hm
      cases hm
      decide
    · rw [show matchStrict (bnodeText (BNode.par ⟨[⟨"B. 2".toList, none⟩]⟩)) =
          some ⟨[], 'B', [], '.', " 2".toList⟩ from by decide] at hm
      cases hm
      decide
  have hfalse : (applyFixToQuestion exC10q "C").1 = false := h.2.1 (Or.inl rfl) hno
  exact ⟨hfalse, h.1 hfalse⟩

end DocxService
namespace DocxService

theorem issuesForQuestion_fields (i : Nat) (q : QuestionBlock) :
    ∀ iss ∈ issuesForQuestion i q,
      iss.questionType = some q.type ∧
      iss.severity = (if q.type = QuestionType.TRUE_FALSE ∨ q.type = QuestionType.ESSAY
        then Severity.warning else Severity.error) := by
  intro iss hmem
  unfold issuesForQuestion at hmem
  by_cases h1 : q.type = QuestionType.MCQ
  · rw [if_pos h1] at hmem
    rcases List.mem_append.mp hmem with hm | hm
    · cases hopt : q.detectedOptionNodes with
      | none => rw [hopt] at hm; simp at hm
      | some k =>
        rw [hopt] at hm
        by_cases hk : k < 2
        · simp only [hk, if_true] at hm
          simp at hm
          subst hm
          simp [h1]
        · simp [hk] at hm
    · by_cases hu : q.hasUnderline = false
      · rw [if_pos hu] at hm
        simp at hm
        subst hm
        simp [h1]
      · rw [if_neg hu] at hm; simp at hm
  · rw [if_neg h1] at hmem
    by_cases h2 : q.type = QuestionType.TRUE_FALSE
    · rw [if_pos h2] at hmem
      by_cases hu : q.hasUnderline = false
      · rw [if_pos hu] at hmem
        simp at hmem
        subst hmem
        simp [h2]
      · rw [if_neg hu] at hmem; simp at hmem
    · rw [if_neg h2] at hmem
      by_cases h3 : q.type = QuestionType.SHORT_ANSWER
      · rw [if_pos h3] at hmem
        by_cases hkey : q.hasKeyTag = false
        · rw [if_pos hkey] at hmem
          simp at hmem
          subst hmem
          simp [h3]
        · rw [if_neg hkey] at hmem; simp at hmem
      · rw [if_neg h3] at hmem
        by_cases h4 : q.type = QuestionType.ESSAY
        · rw [if_pos h4] at hmem
          by_cases hlen : (trimChars q.textContent).length < 5
          · rw [if_pos hlen] at hmem
            simp at hmem
            subst hmem
            simp [h4]
          · rw [if_neg hlen] at hmem; simp at hmem
        · rw [if_neg h4] at hmem
          simp at hmem
          subst hmem
          have h5 : ¬(q.type = QuestionType.TRUE_FALSE ∨ q.type = QuestionType.ESSAY) := by
            rintro (h | h)
            · exact h2 h
            · exact h4 h
          simp [h5]

theorem issuesForQuestion_length (i : Nat) (q : QuestionBlock) :
    (issuesForQuestion i q).length = numFailingRules q := by
  unfold issuesForQuestion numFailingRules
  by_cases h1 : q.type = QuestionType.MCQ
  · rw [if_pos h1, if_pos h1]
    rw [List.length_append]
    cases hopt : q.detectedOptionNodes with
    | none => by_cases hu : q.hasUnderline = false <;> simp [hu]
    | some k =>
      by_cases hk : k < 2 <;> by_cases hu : q.hasUnderline = false <;> simp [hk, hu]
  · rw [if_neg h1, if_neg h1]
    by_cases h2 : q.type = QuestionType.TRUE_FALSE
    · rw [if_pos h2, if_pos h2]
      by_cases hu : q.hasUnderline = false <;> simp [hu]
    · rw [if_neg h2, if_neg h2]
      by_cases h3 : q.type = QuestionType.SHORT_ANSWER
      · rw [if_pos h3, if_pos h3]
        by_cases hkey : q.hasKeyTag = false <;> simp [hkey]
      · rw [if_neg h3, if_neg h3]
        by_cases h4 : q.type = QuestionType.ESSAY
        · rw [if_pos h4, if_pos h4]
          by_cases hlen : (trimChars q.textContent).length < 5 <;> simp [hlen]
        · rw [if_neg h4, if_neg h4]
          rfl

/-- C7 amended: every failing validity rule emits exactly one issue;
the severity is error for every rule except the true-false
missing-underline rule and the essay short-or-empty-text rule, which
emit warning; in particular the short-answer missing-key rule emits
error. -/
theorem getValidationIssues_severities (qs : List QuestionBlock) :
    (∀ iss ∈ getValidationIssues qs,
      (iss.severity = Severity.warning ↔
        (iss.questionType = some QuestionType.TRUE_FALSE ∨
         iss.questionType = some QuestionType.ESSAY))) ∧
    (getValidationIssues qs).length = (qs.map numFailingRules).sum := by
  constructor
  · intro iss hmem
    unfold getValidationIssues at hmem
    rw [List.mem_flatten] at hmem
    obtain ⟨chunk, hchunk, hiss⟩ := hmem
    rw [List.mem_map] at hchunk
    obtain ⟨p, hp, rfl⟩ := hchunk
    obtain ⟨hqt, hsev⟩ := issuesForQuestion_fields p.1 p.2 iss hiss
    rw [hqt, hsev]
    by_cases h : p.2.type = QuestionType.TRUE_FALSE ∨ p.2.type = QuestionType.ESSAY
    · rw [if_pos h]
      simp only [true_iff]
      rcases h with h | h
      · exact Or.inl (by rw [h])
      · exact Or.inr (by rw [h])
    · rw [if_neg h]
      constructor
      · intro hc; exact absurd hc (by simp)
      · intro hc
        rcases hc with hc | hc
        · exact absurd (Or.inl (Option.some.inj hc)) h
        · exact absurd (Or.inr (Option.some.inj hc)) h
  · unfold getValidationIssues
    rw [List.length_flatten]
    have h1 : (qs.enum.map (fun p => issuesForQuestion p.1 p.2)).map List.length =
        qs.enum.map (fun p => numFailingRules p.2) := by
      rw [List.map_map]
      exact List.map_congr_left (fun p _ => issuesForQuestion_length p.1 p.2)
    rw [h1]
    have h2 : qs.enum.map (fun p => numFailingRules p.2) = qs.map numFailingRules := by
      have h3 : qs.enum.map (fun p => numFailingRules p.2) =
          (qs.enum.map Prod.snd).map numFailingRules := by rw [List.map_map]; rfl
      rw [h3, List.enum_map_snd]
    rw [h2]

theorem getValidationIssues_essay_warning :
    (getValidationIssues [exC7q]).map (fun iss => iss.severity) = [Severity.warning] := by
  decide

end DocxService
namespace DocxService

/-- C6 amended: for a question classified multiple choice, the
validity flag is true exactly when some paragraph node of the question
carries an underline, wherever that underline sits; neither the
two-separate-option-nodes condition nor the requirement that the
underline lie on an option node enters the flag (they surface only in
the issue report). -/
theorem mkQuestionBlock_mcq_isValid_iff (nodes : List BNode)
    (text sectionLabel : List Char) (idx : Nat)
    (h : (mkQuestionBlock nodes text sectionLabel idx).type = QuestionType.MCQ) :
    ((mkQuestionBlock nodes text sectionLabel idx).isValid = true ↔
      nodes.any isUnderlinedPar = true) := by
  have htype : (mkQuestionBlock nodes text sectionLabel idx).type =
      (if isEssaySectionLabel sectionLabel ∧ detectType text = QuestionType.UNKNOWN
       then QuestionType.ESSAY else detectType text) := rfl
  have hany : (nodes.any (fun n => match n with | BNode.par p => hasUnderlineN p | _ => false)) =
      nodes.any isUnderlinedPar := by
    apply congrArg
    funext n
    cases n <;> rfl
  have hval : (mkQuestionBlock nodes text sectionLabel idx).isValid =
      (let qType := (if isEssaySectionLabel sectionLabel ∧ detectType text = QuestionType.UNKNOWN
         then QuestionType.ESSAY else detectType text)
       let hasU := nodes.any (fun n => match n with | BNode.par p => hasUnderlineN p | _ => false)
       let hasKey := (findKeyTag text).isSome
       let v1 := if qType = QuestionType.MCQ ∧ hasU = false then false else true
       let v2 := if qType = QuestionType.TRUE_FALSE ∧ hasU = false then false else v1
       let v3 := if qType = QuestionType.SHORT_ANSWER ∧ hasKey = false then false else v2
       let v4 := if qType = QuestionType.ESSAY then true else v3
       if qType = QuestionType.UNKNOWN then false else v4) := rfl
  rw [htype] at h
  rw [hval]
  simp only [h, hany]
  cases hb : nodes.any isUnderlinedPar <;> simp

theorem mkQuestionBlock_c6_counterexample :
    (mkQuestionBlock exC6nodes exC6text [] 0).type = QuestionType.MCQ ∧
    (mkQuestionBlock exC6nodes exC6text [] 0).detectedOptionNodes = some 1 ∧
    (exC6nodes.any (fun b => (matchStrict (bnodeText b)).isSome && isUnderlinedPar b)) = false ∧
    (mkQuestionBlock exC6nodes exC6text [] 0).isValid = true := by
  decide

end DocxService
namespace DocxService

theorem mkQuestionBlock_mcq_isValid_iff_witness :
    (mkQuestionBlock exC6nodes exC6text [] 0).type = QuestionType.MCQ ∧
    ((mkQuestionBlock exC6nodes exC6text [] 0).isValid = true ↔
      exC6nodes.any isUnderlinedPar = true) :=
  ⟨by decide, mkQuestionBlock_mcq_isValid_iff exC6nodes exC6text [] 0 (by decide)⟩

/-- C8 amended: with no inline key marker and neither line-initial
rule firing, detectType returns the multiple-choice type exactly when
the text carries an A marker, later a B marker and later a C marker in
order, the gaps free to span line breaks; otherwise it returns the
unknown type (the essay reclassification happens outside
detectType). -/
theorem detectType_fallback (text : List Char)
    (hkey : findKeyTag text = none)
    (hmcq : ¬(2 ≤ ((splitLines text).map trimChars).countP isMcqLine ∧
      ((splitLines text).map trimChars).countP isTfLine <
        ((splitLines text).map trimChars).countP isMcqLine))
    (htf : ¬(2 ≤ ((splitLines text).map trimChars).countP isTfLine ∧
      ((splitLines text).map trimChars).countP isMcqLine <
        ((splitLines text).map trimChars).countP isTfLine)) :
    (detectType text = QuestionType.MCQ ↔ hasInlineABC text = true) ∧
    (hasInlineABC text = false → detectType text = QuestionType.UNKNOWN) := by
  have hd : detectType text =
      (if hasInlineABC text then QuestionType.MCQ else QuestionType.UNKNOWN) := by
    unfold detectType
    rw [hkey]
    simp only [Option.isSome_none, Bool.false_eq_true, if_false]
    rw [if_neg hmcq, if_neg htf]
  rw [hd]
  constructor
  · cases hb : hasInlineABC text <;> simp
  · intro hfalse
    rw [hfalse]
    simp

theorem detectType_fallback_witness :
    findKeyTag "A. 1 B. 2 C. 3".toList = none ∧
    hasInlineABC "A. 1 B. 2 C. 3".toList = true ∧
    detectType "A. 1 B. 2 C. 3".toList = QuestionType.MCQ := by
  refine ⟨by decide, by decide, ?_⟩
  exact (detectType_fallback "A. 1 B. 2 C. 3".toList (by decide) (by decide) (by decide)).1.mpr
    (by decide)

theorem detectType_c8_counterexample :
    specSingleLineMarkerRun "B. 1 C. 2 D. 3".toList = true ∧
    findKeyTag "B. 1 C. 2 D. 3".toList = none ∧
    ¬(2 ≤ ((splitLines "B. 1 C. 2 D. 3".toList).map trimChars).countP isMcqLine ∧
      ((splitLines "B. 1 C. 2 D. 3".toList).map trimChars).countP isTfLine <
        ((splitLines "B. 1 C. 2 D. 3".toList).map trimChars).countP isMcqLine) ∧
    ¬(2 ≤ ((splitLines "B. 1 C. 2 D. 3".toList).map trimChars).countP isTfLine ∧
      ((splitLines "B. 1 C. 2 D. 3".toList).map trimChars).countP isMcqLine <
        ((splitLines "B. 1 C. 2 D. 3".toList).map trimChars).countP isTfLine) ∧
    detectType "B. 1 C. 2 D. 3".toList = QuestionType.UNKNOWN := by
  decide

end DocxService
namespace DocxService

/-- C9: processing fails with a format error when the main content
part is absent or its body element is absent; each error message names
the missing piece, and the error result carries no processed
document. -/
theorem processDocxFile_format_errors (pkg : Package) :
    (pkg.documentXml = none →
      processDocxFile pkg =
        Except.error "Không tìm thấy word/document.xml. File docx không hợp lệ.") ∧
    (∀ d, pkg.documentXml = some d → d.body = none →
      processDocxFile pkg = Except.error "Cấu trúc file lỗi (thiếu w:body).") ∧
    ("word/document.xml".toList <:+:
      "Không tìm thấy word/document.xml. File docx không hợp lệ.".toList) ∧
    ("w:body".toList <:+: "Cấu trúc file lỗi (thiếu w:body).".toList) := by
  refine ⟨?_, ?_, by decide, by decide⟩
  · intro h
    unfold processDocxFile
    rw [h]
  · intro d hd hb
    unfold processDocxFile
    rw [hd]
    simp [hb]

theorem processDocxFile_format_errors_witness :
    processDocxFile { documentXml := none } =
      Except.error "Không tìm thấy word/document.xml. File docx không hợp lệ." ∧
    processDocxFile { documentXml := some { body := none } } =
      Except.error "Cấu trúc file lỗi (thiếu w:body)." :=
  ⟨(processDocxFile_format_errors { documentXml := none }).1 rfl,
   (processDocxFile_format_errors { documentXml := some { body := none } }).2.1
     { body := none } rfl rfl⟩

end DocxService
namespace DocxService

theorem getValidationIssues_severities_witness :
    (getValidationIssues [exC7q]).length = ([exC7q].map numFailingRules).sum ∧
    ∃ iss ∈ getValidationIssues [exC7q], iss.severity = Severity.warning := by
  refine ⟨(getValidationIssues_severities [exC7q]).2, ?_⟩
  refine ⟨⟨0, "Câu 9".toList, "Nội dung câu tự luận quá ngắn hoặc trống.",
    "Kiểm tra lại nội dung câu hỏi.", Severity.warning, some QuestionType.ESSAY⟩,
    by decide, ?_⟩
  exact ((getValidationIssues_severities [exC7q]).1 _ (by decide)).mpr (Or.inr (by decide))

end DocxService
namespace DocxService

theorem filterMap_eq_map_of_some {α β : Type} (F : α → Option β) (G : α → β) :
    ∀ l : List α, (∀ k ∈ l, F k = some (G k)) → l.filterMap F = l.map G := by
  intro l
  induction l with
  | nil => intro _; rfl
  | cons a t ih =>
    intro h
    rw [List.filterMap_cons, h a (List.mem_cons_self a t), List.map_cons,
      ih (fun k hk => h k (List.mem_cons_of_mem a hk))]

theorem log_find_range (recordAns : Nat → Nat → Option String) (startCode : Nat) :
    ∀ (n a k : Nat), k < n →
      (((List.range' a n).map
          (fun m => ({ code := startCode + m, answers := recordAns (m + 1) } : VariantAnswers))).find?
        (fun v => v.code == startCode + (a + k))) =
      some { code := startCode + (a + k), answers := recordAns (a + k + 1) } := by
  intro n
  induction n with
  | zero => intro a k hk; omega
  | succ n1 ih =>
    intro a k hk
    rw [List.range'_succ, List.map_cons, List.find?_cons]
    cases k with
    | zero =>
      have hc : (({ code := startCode + a, answers := recordAns (a + 1) } : VariantAnswers).code ==
          startCode + (a + 0)) = true := by simp
      rw [hc]
      simp
    | succ k1 =>
      have hc : (({ code := startCode + a, answers := recordAns (a + 1) } : VariantAnswers).code ==
          startCode + (a + (k1 + 1))) = false := by simp
      rw [hc]
      have h2 := ih (a + 1) k1 (by omega)
      have h3 : a + 1 + k1 = a + (k1 + 1) := by omega
      rw [h3] at h2
      exact h2

/-- C5: the variant loop produces exactly count answer logs with codes
startCode through startCode + count - 1 in order (variant i getting
startCode + i - 1); the exported matrix has one row per question index
one through the total, its columns are the variant codes sorted
ascending (one column per variant), and each cell is that variant's
recorded answer at the row index, or empty when the variant recorded
none. -/
theorem generateVariants_codes_matrix (recordAns : Nat → Nat → Option String)
    (count startCode total : Nat) :
    (generateVariantsAnswerLog recordAns count startCode).length = count ∧
    (generateVariantsAnswerLog recordAns count startCode).map (fun v => v.code) =
      (List.range count).map (fun k => startCode + k) ∧
    List.Pairwise (· < ·)
      ((generateVariantsAnswerLog recordAns count startCode).map (fun v => v.code)) ∧
    buildExcelRows (generateVariantsAnswerLog recordAns count startCode) total =
      (List.range total).map (fun j =>
        { stt := j + 1
          cells := (List.range count).map (fun k =>
            (startCode + k, (recordAns (k + 1) (j + 1)).getD "")) }) := by
  have hlen : (generateVariantsAnswerLog recordAns count startCode).length = count := by
    simp [generateVariantsAnswerLog]
  have hmapcode : (generateVariantsAnswerLog recordAns count startCode).map (fun v => v.code) =
      (List.range count).map (fun k => startCode + k) := by
    simp [generateVariantsAnswerLog, List.map_map]
  have hpair : List.Pairwise (· < ·)
      ((generateVariantsAnswerLog recordAns count startCode).map (fun v => v.code)) := by
    rw [hmapcode]
    refine List.Pairwise.map _ ?_ (List.pairwise_lt_range count)
    intro a b hab
    omega
  have hsorted : List.Sorted (· ≤ ·) ((List.range count).map (fun k => startCode + k)) := by
    refine List.Pairwise.map _ ?_ (List.pairwise_lt_range count)
    intro a b hab
    omega
  have hsort : sortVariantCodes ((List.range count).map (fun k => startCode + k)) =
      (List.range count).map (fun k => startCode + k) := by
    unfold sortVariantCodes
    exact List.mergeSort_eq_self hsorted
  refine ⟨hlen, hmapcode, hpair, ?_⟩
  unfold buildExcelRows
  rw [hmapcode, hsort]
  apply List.map_congr_left
  intro j hj
  have hcells : ((List.range count).map (fun k => startCode + k)).filterMap
      (fun code =>
        match (generateVariantsAnswerLog recordAns count startCode).find?
            (fun v => v.code == code) with
        | some v => some (code, (v.answers (j + 1)).getD "")
        | none => none) =
      (List.range count).map (fun k =>
        (startCode + k, (recordAns (k + 1) (j + 1)).getD "")) := by
    rw [List.filterMap_map]
    apply filterMap_eq_map_of_some
    intro k hk
    have hkc : k < count := List.mem_range.mp hk
    have hfind := log_find_range recordAns startCode count 0 k hkc
    simp only [Nat.zero_add] at hfind
    have hlog : generateVariantsAnswerLog recordAns count startCode =
        (List.range' 0 count).map
          (fun m => ({ code := startCode + m, answers := recordAns (m + 1) } : VariantAnswers)) := by
      rw [generateVariantsAnswerLog, List.range_eq_range']
    simp only [Function.comp_apply]
    rw [hlog]
    rw [hfind]
  rw [hcells]

end DocxService
namespace DocxService

theorem char_le_toNat {a b : Char} : a ≤ b ↔ a.toNat ≤ b.toNat := by
  rw [Char.le_def, UInt32.le_def, BitVec.le_def]
  rfl

theorem char_eq_toNat {a b : Char} : a = b ↔ a.toNat = b.toNat :=
  ⟨fun h => by rw [h], fun h => Char.ext (UInt32.toNat.inj h)⟩

theorem optLetter_toNat {c : Char} (h : optLetter c = true) :
    (65 ≤ c.toNat ∧ c.toNat ≤ 68) ∨ (97 ≤ c.toNat ∧ c.toNat ≤ 100) := by
  unfold optLetter at h
  simp only [Bool.or_eq_true, Bool.and_eq_true, decide_eq_true_eq, char_le_toNat,
    show ('A' : Char).toNat = 65 from rfl, show ('D' : Char).toNat = 68 from rfl,
    show ('a' : Char).toNat = 97 from rfl, show ('d' : Char).toNat = 100 from rfl] at h
  omega

theorem sepChar_toNat {c : Char} (h : sepChar c = true) :
    c.toNat = 46 ∨ c.toNat = 41 ∨ c.toNat = 58 := by
  unfold sepChar at h
  simp only [Bool.or_eq_true, decide_eq_true_eq, char_eq_toNat,
    show ('.' : Char).toNat = 46 from rfl, show (')' : Char).toNat = 41 from rfl,
    show (':' : Char).toNat = 58 from rfl] at h
  omega

theorem isJsWs_toNat {c : Char} (h : isJsWs c = true) :
    c.toNat = 32 ∨ c.toNat = 9 ∨ c.toNat = 10 ∨ c.toNat = 11 ∨ c.toNat = 12 ∨ c.toNat = 13 ∨
    c.toNat = 160 ∨ c.toNat = 5760 ∨ (8192 ≤ c.toNat ∧ c.toNat ≤ 8202) ∨
    c.toNat = 8232 ∨ c.toNat = 8233 ∨ c.toNat = 8239 ∨ c.toNat = 8287 ∨
    c.toNat = 12288 ∨ c.toNat = 65279 := by
  unfold isJsWs at h
  simp only [Bool.or_eq_true, Bool.and_eq_true, decide_eq_true_eq, char_eq_toNat, char_le_toNat,
    show (' ' : Char).toNat = 32 from rfl, show ('\u0009' : Char).toNat = 9 from rfl,
    show ('\u000A' : Char).toNat = 10 from rfl, show ('\u000B' : Char).toNat = 11 from rfl,
    show ('\u000C' : Char).toNat = 12 from rfl, show ('\u000D' : Char).toNat = 13 from rfl,
    show (' ' : Char).toNat = 160 from rfl, show (' ' : Char).toNat = 5760 from rfl,
    show (' ' : Char).toNat = 8192 from rfl, show (' ' : Char).toNat = 8202 from rfl,
    show (' ' : Char).toNat = 8232 from rfl, show (' ' : Char).toNat = 8233 from rfl,
    show (' ' : Char).toNat = 8239 from rfl, show (' ' : Char).toNat = 8287 from rfl,
    show ('　' : Char).toNat = 12288 from rfl,
    show ('﻿' : Char).toNat = 65279 from rfl] at h
  omega

theorem optLetter_not_ws {c : Char} (h : optLetter c = true) : isJsWs c = false := by
  cases hw : isJsWs c
  · rfl
  · exfalso
    have h1 := optLetter_toNat h
    have h2 := isJsWs_toNat hw
    omega

theorem sepChar_not_ws {c : Char} (h : sepChar c = true) : isJsWs c = false := by
  cases hw : isJsWs c
  · rfl
  · exfalso
    have h1 := sepChar_toNat h
    have h2 := isJsWs_toNat hw
    omega

theorem takeWhile_append_of_all {p : Char → Bool} {pre : List Char} {l : Char} {rest : List Char}
    (hpre : pre.all p = true) (hl : p l = false) :
    ((pre ++ l :: rest).takeWhile p = pre) ∧ ((pre ++ l :: rest).dropWhile p = l :: rest) := by
  induction pre with
  | nil =>
    constructor
    · rw [List.nil_append, List.takeWhile_cons, hl]
      simp
    · rw [List.nil_append, List.dropWhile_cons, hl]
      simp
  | cons a t ih =>
    simp only [List.all_cons, Bool.and_eq_true] at hpre
    obtain ⟨ha, ht⟩ := hpre
    obtain ⟨ih1, ih2⟩ := ih ht
    constructor
    · rw [List.cons_append, List.takeWhile_cons, ha]
      simp only [reduceIte]
      rw [ih1]
    · rw [List.cons_append, List.dropWhile_cons, ha]
      simp only [reduceIte]
      rw [ih2]

end DocxService
namespace DocxService

theorem matchStrict_some_iff {cs : List Char} {m : StrictMatch} :
    matchStrict cs = some m ↔
      (cs = m.pre ++ m.letter :: (m.mid ++ m.sep :: m.rest) ∧
       m.pre.all isJsWs = true ∧ optLetter m.letter = true ∧
       m.mid.all isJsWs = true ∧ sepChar m.sep = true) := by
  constructor
  · intro h
    unfold matchStrict at h
    cases hd : cs.dropWhile isJsWs with
    | nil => rw [hd] at h; simp at h
    | cons l r1 =>
      rw [hd] at h
      dsimp only [] at h
      by_cases hl : optLetter l
      · rw [if_pos hl] at h
        cases hd2 : r1.dropWhile isJsWs with
        | nil => rw [hd2] at h; simp at h
        | cons s r2 =>
          rw [hd2] at h
          dsimp only [] at h
          by_cases hs : sepChar s
          · rw [if_pos hs] at h
            simp only [Option.some.injEq] at h
            subst h
            refine ⟨?_, List.all_takeWhile, hl, List.all_takeWhile, hs⟩
            have e1 : cs = cs.takeWhile isJsWs ++ (l :: r1) := by
              conv_lhs => rw [← List.takeWhile_append_dropWhile (p := isJsWs) (l := cs)]
              rw [hd]
            have e2 : r1 = r1.takeWhile isJsWs ++ (s :: r2) := by
              conv_lhs => rw [← List.takeWhile_append_dropWhile (p := isJsWs) (l := r1)]
              rw [hd2]
            rw [← e2]
            exact e1
          · rw [if_neg hs] at h; simp at h
      · rw [if_neg hl] at h; simp at h
  · rintro ⟨hcs, hpre, hl, hmid, hs⟩
    subst hcs
    unfold matchStrict
    obtain ⟨ht1, hd1⟩ := takeWhile_append_of_all hpre (optLetter_not_ws hl)
    rw [hd1]
    dsimp only []
    rw [if_pos hl]
    obtain ⟨ht2, hd2⟩ := takeWhile_append_of_all hmid (sepChar_not_ws hs)
    rw [hd2]
    dsimp only []
    rw [if_pos hs, ht1, ht2]

theorem matchLoose_some_iff {cs : List Char} {pre : List Char} {l : Char} {tail : List Char} :
    matchLoose cs = some (pre, l, tail) ↔
      (cs = pre ++ l :: tail ∧ pre.all isJsWs = true ∧ optLetter l = true ∧
       tail.all isJsWs = true) := by
  constructor
  · intro h
    unfold matchLoose at h
    cases hd : cs.dropWhile isJsWs with
    | nil => rw [hd] at h; simp at h
    | cons x r1 =>
      rw [hd] at h
      dsimp only [] at h
      by_cases hx : optLetter x && r1.all isJsWs
      · rw [if_pos hx] at h
        simp only [Option.some.injEq, Prod.mk.injEq] at h
        obtain ⟨h1, h2, h3⟩ := h
        subst h1; subst h2; subst h3
        simp only [Bool.and_eq_true] at hx
        refine ⟨?_, List.all_takeWhile, hx.1, hx.2⟩
        conv_lhs => rw [← List.takeWhile_append_dropWhile (p := isJsWs) (l := cs)]
        rw [hd]
      · rw [if_neg hx] at h; simp at h
  · rintro ⟨hcs, hpre, hl, htail⟩
    subst hcs
    unfold matchLoose
    obtain ⟨ht1, hd1⟩ := takeWhile_append_of_all hpre (optLetter_not_ws hl)
    rw [hd1]
    dsimp only []
    rw [if_pos (by rw [hl, htail]; rfl), ht1]

theorem matchStrict_of_all_ws {cs : List Char} (h : cs.all isJsWs = true) :
    matchStrict cs = none := by
  unfold matchStrict
  have hd : cs.dropWhile isJsWs = [] := by
    rw [List.dropWhile_eq_nil_iff]
    intro x hx
    exact List.all_eq_true.mp h x hx
  rw [hd]

theorem matchLoose_of_all_ws {cs : List Char} (h : cs.all isJsWs = true) :
    matchLoose cs = none := by
  unfold matchLoose
  have hd : cs.dropWhile isJsWs = [] := by
    rw [List.dropWhile_eq_nil_iff]
    intro x hx
    exact List.all_eq_true.mp h x hx
  rw [hd]

theorem ws_cons_eq {p1 p2 t1 t2 : List Char} {a b : Char}
    (h : p1 ++ a :: t1 = p2 ++ b :: t2)
    (hp1 : p1.all isJsWs = true) (hp2 : p2.all isJsWs = true)
    (ha : isJsWs a = false) (hb : isJsWs b = false) :
    p1 = p2 ∧ a = b ∧ t1 = t2 := by
  induction p1 generalizing p2 with
  | nil =>
    cases p2 with
    | nil =>
      simp at h
      exact ⟨rfl, h.1, h.2⟩
    | cons c q2 =>
      simp only [List.all_cons, Bool.and_eq_true] at hp2
      simp only [List.nil_append, List.cons_append, List.cons.injEq] at h
      rw [← h.1] at hp2
      rw [hp2.1] at ha
      simp at ha
  | cons c q1 ih =>
    simp only [List.all_cons, Bool.and_eq_true] at hp1
    cases p2 with
    | nil =>
      simp only [List.cons_append, List.nil_append, List.cons.injEq] at h
      rw [h.1] at hp1
      rw [hp1.1] at hb
      simp at hb
    | cons d q2 =>
      simp only [List.all_cons, Bool.and_eq_true] at hp2
      simp only [List.cons_append, List.cons.injEq] at h
      obtain ⟨hcd, hrest⟩ := h
      obtain ⟨e1, e2, e3⟩ := ih hrest hp1.2 hp2.2
      exact ⟨by rw [hcd, e1], e2, e3⟩

end DocxService
namespace DocxService

theorem relabelRun_none_iff {nl : List Char} {sep : Char} {r : Run} :
    relabelRun nl sep r = none ↔ stripRun r = none := by
  unfold relabelRun stripRun
  by_cases he : r.t = []
  · rw [if_pos he, if_pos he]
  · rw [if_neg he, if_neg he]
    cases matchStrict r.t with
    | some m =>
      constructor <;> intro h <;> exact absurd h (by simp)
    | none =>
      cases matchLoose r.t with
      | some pr =>
        obtain ⟨pre, l, tail⟩ := pr
        constructor <;> intro h <;> exact absurd h (by simp)
      | none => exact Iff.rfl

theorem relabelRun_u {nl : List Char} {sep : Char} {r r2 : Run}
    (h : relabelRun nl sep r = some r2) : r2.u = r.u := by
  unfold relabelRun at h
  by_cases he : r.t = []
  · rw [if_pos he] at h; simp at h
  · rw [if_neg he] at h
    cases hm : matchStrict r.t with
    | some m =>
      rw [hm] at h
      injection h with h2
      rw [← h2]
    | none =>
      rw [hm] at h
      cases hl : matchLoose r.t with
      | some pr =>
        obtain ⟨pre, l, tail⟩ := pr
        rw [hl] at h
        injection h with h2
        rw [← h2]
      | none =>
        rw [hl] at h
        simp at h

theorem matchStrict_nonempty {cs : List Char} {m : StrictMatch}
    (h : matchStrict cs = some m) : cs ≠ [] := by
  intro he
  subst he
  simp [matchStrict] at h

theorem stripRun_relabelRun {c : Char} (hc : optLetter c = true) {sep : Char}
    (hsep : sepChar sep = true) {r r2 : Run}
    (h : relabelRun [c] sep r = some r2) : stripRun r2 = stripRun r := by
  unfold relabelRun at h
  by_cases he : r.t = []
  · rw [if_pos he] at h; simp at h
  · rw [if_neg he] at h
    cases hm : matchStrict r.t with
    | some m =>
      rw [hm] at h
      injection h with h2
      obtain ⟨hcs, hpre, hl, hmid, hs⟩ := matchStrict_some_iff.mp hm
      have ht2 : r2.t = m.pre ++ c :: ([] ++ sep :: m.rest) := by
        rw [← h2]
        simp
      have hm2 : matchStrict r2.t = some ⟨m.pre, c, [], sep, m.rest⟩ :=
        matchStrict_some_iff.mpr ⟨ht2, hpre, hc, rfl, hsep⟩
      have hne2 : r2.t ≠ [] := matchStrict_nonempty hm2
      unfold stripRun
      rw [if_neg hne2, if_neg he, hm2, hm]
      simp only [Option.some.injEq]
      rw [← h2]
    | none =>
      rw [hm] at h
      cases hl : matchLoose r.t with
      | none => rw [hl] at h; simp at h
      | some pr =>
        obtain ⟨pre, l, tail⟩ := pr
        rw [hl] at h
        injection h with h2
        obtain ⟨hcs, hpre, hlet, htail⟩ := matchLoose_some_iff.mp hl
        have ht2 : r2.t = pre ++ c :: tail := by
          rw [← h2]
          simp
        have hm2 : matchStrict r2.t = none := by
          cases hms : matchStrict r2.t with
          | none => rfl
          | some m2 =>
            exfalso
            obtain ⟨hcs2, hpre2, hl2, hmid2, hs2⟩ := matchStrict_some_iff.mp hms
            rw [ht2] at hcs2
            obtain ⟨e1, e2, e3⟩ := ws_cons_eq hcs2 hpre hpre2
              (optLetter_not_ws hc) (optLetter_not_ws hl2)
            have hsepmem : m2.sep ∈ tail := by
              rw [e3]
              exact List.mem_append_right _ (List.mem_cons_self _ _)
            have hws : isJsWs m2.sep = true := List.all_eq_true.mp htail _ hsepmem
            rw [sepChar_not_ws hs2] at hws
            simp at hws
        have hlo2 : matchLoose r2.t = some (pre, c, tail) :=
          matchLoose_some_iff.mpr ⟨ht2, hpre, hc, htail⟩
        have hne2 : r2.t ≠ [] := by
          rw [ht2]
          simp
        unfold stripRun
        rw [if_neg hne2, if_neg he, hm2, hm, hlo2, hl]
        simp only [Option.some.injEq]
        rw [← h2]

theorem stripRuns_relabelRuns {c : Char} (hc : optLetter c = true) {sep : Char}
    (hsep : sepChar sep = true) :
    ∀ runs : List Run, stripRuns (relabelRuns [c] sep runs) = stripRuns runs := by
  intro runs
  induction runs with
  | nil => rfl
  | cons r rs ih =>
    unfold relabelRuns
    cases hr : relabelRun [c] sep r with
    | none =>
      have hs0 : stripRun r = none := relabelRun_none_iff.mp hr
      unfold stripRuns
      rw [hs0, ih]
    | some r2 =>
      have hs2 : stripRun r2 = stripRun r := stripRun_relabelRun hc hsep hr
      unfold stripRuns
      cases hsr : stripRun r with
      | none =>
        rw [relabelRun_none_iff.mpr hsr] at hr
        simp at hr
      | some r3 =>
        rw [hs2, hsr]

theorem contentIgnoringLabel_relabel {c : Char} (hc : optLetter c = true) {sep : Char}
    (hsep : sepChar sep = true) (n : PNode) :
    contentIgnoringLabel (replaceOptionLabel [c] sep n) = contentIgnoringLabel n := by
  unfold contentIgnoringLabel replaceOptionLabel
  rw [stripRuns_relabelRuns hc hsep]

theorem relabelRuns_underline {nl : List Char} {sep : Char} :
    ∀ runs : List Run, (relabelRuns nl sep runs).any runUnderlined = runs.any runUnderlined := by
  intro runs
  induction runs with
  | nil => rfl
  | cons r rs ih =>
    unfold relabelRuns
    cases hr : relabelRun nl sep r with
    | none =>
      simp only [List.any_cons]
      rw [ih]
    | some r2 =>
      have hu : r2.u = r.u := relabelRun_u hr
      simp only [List.any_cons]
      rw [show runUnderlined r2 = runUnderlined r from by unfold runUnderlined; rw [hu]]

theorem hasUnderlineN_relabel (nl : List Char) (sep : Char) (n : PNode) :
    hasUnderlineN (replaceOptionLabel nl sep n) = hasUnderlineN n := by
  unfold hasUnderlineN replaceOptionLabel
  exact relabelRuns_underline n.runs

end DocxService
namespace DocxService

theorem detectStep_optionIndices (type : QuestionType) (st : DetectSt) (i : Nat) (n : PNode) :
    (detectStep type st i n).optionIndices =
      st.optionIndices ++ (if isOptionNode n = true then [i] else []) := by
  unfold detectStep isOptionNode
  cases hm : matchStrict (nodeText n) with
  | some m => simp [hm]
  | none =>
    cases hl : matchLoose (nodeText n) with
    | some pr => simp [hm, hl]
    | none => simp [hm, hl]

theorem detectStep_sep (type : QuestionType) (st : DetectSt) (i : Nat) (n : PNode)
    (h : sepChar st.sep = true) : sepChar (detectStep type st i n).sep = true := by
  unfold detectStep
  cases hm : matchStrict (nodeText n) with
  | some m =>
    simp only [hm]
    exact (matchStrict_some_iff.mp hm).2.2.2.2
  | none =>
    cases hl : matchLoose (nodeText n) with
    | some pr => simp only [hm, hl]; simpa using h
    | none => simp only [hm, hl]; simpa using h

theorem detectStep_correctIdx (type : QuestionType) (st : DetectSt) (i : Nat) (n : PNode) :
    (detectStep type st i n).correctIdx =
      (if isOptionNode n = true ∧ type = QuestionType.MCQ ∧ hasUnderlineN n = true
        then some i else st.correctIdx) := by
  unfold detectStep isOptionNode
  cases hm : matchStrict (nodeText n) with
  | some m =>
    by_cases hc : type = QuestionType.MCQ ∧ hasUnderlineN n = true
    · simp [hm, hc]
    · simp [hm, hc]
  | none =>
    cases hl : matchLoose (nodeText n) with
    | some pr =>
      by_cases hc : type = QuestionType.MCQ ∧ hasUnderlineN n = true
      · simp [hm, hl, hc]
      · simp [hm, hl, hc]
    | none => simp [hm, hl]

theorem detectStep_inv (type : QuestionType) (st : DetectSt) (i : Nat) (n : PNode)
    (h : ∀ c, st.correctIdx = some c → c ∈ st.optionIndices) :
    ∀ c, (detectStep type st i n).correctIdx = some c →
      c ∈ (detectStep type st i n).optionIndices := by
  intro c hc
  rw [detectStep_optionIndices]
  rw [detectStep_correctIdx] at hc
  by_cases hcond : isOptionNode n = true ∧ type = QuestionType.MCQ ∧ hasUnderlineN n = true
  · rw [if_pos hcond] at hc
    injection hc with hc2
    subst hc2
    rw [if_pos hcond.1]
    exact List.mem_append_right _ (List.mem_singleton.mpr rfl)
  · rw [if_neg hcond] at hc
    exact List.mem_append_left _ (h c hc)

theorem collectOpt_nil (i : Nat) : collectOpt i [] = [] := rfl

theorem collectOpt_cons (i : Nat) (n : PNode) (ns : List PNode) :
    collectOpt i (n :: ns) =
      (if isOptionNode n = true then [i] else []) ++ collectOpt (i + 1) ns := rfl

theorem detectGo_optionIndices (type : QuestionType) :
    ∀ (ns : List PNode) (i : Nat) (st : DetectSt),
      (detectGo type i ns st).optionIndices = st.optionIndices ++ collectOpt i ns := by
  intro ns
  induction ns with
  | nil => intro i st; simp [detectGo, collectOpt]
  | cons n ns ih =>
    intro i st
    unfold detectGo
    rw [ih (i + 1) (detectStep type st i n), detectStep_optionIndices,
      collectOpt_cons, List.append_assoc]

theorem detectGo_sep (type : QuestionType) :
    ∀ (ns : List PNode) (i : Nat) (st : DetectSt), sepChar st.sep = true →
      sepChar (detectGo type i ns st).sep = true := by
  intro ns
  induction ns with
  | nil => intro i st h; exact h
  | cons n ns ih =>
    intro i st h
    unfold detectGo
    exact ih (i + 1) _ (detectStep_sep type st i n h)

theorem detectGo_inv (type : QuestionType) :
    ∀ (ns : List PNode) (i : Nat) (st : DetectSt),
      (∀ c, st.correctIdx = some c → c ∈ st.optionIndices) →
      ∀ c, (detectGo type i ns st).correctIdx = some c →
        c ∈ (detectGo type i ns st).optionIndices := by
  intro ns
  induction ns with
  | nil => intro i st h c hc; exact h c hc
  | cons n ns ih =>
    intro i st h
    unfold detectGo
    exact ih (i + 1) _ (detectStep_inv type st i n h)

theorem collectOpt_bounds :
    ∀ (ns : List PNode) (i : Nat), ∀ j ∈ collectOpt i ns, i ≤ j ∧ j < i + ns.length := by
  intro ns
  induction ns with
  | nil => intro i j hj; simp [collectOpt] at hj
  | cons n ns ih =>
    intro i j hj
    unfold collectOpt at hj
    rcases List.mem_append.mp hj with hm | hm
    · by_cases ho : isOptionNode n = true
      · rw [if_pos ho] at hm
        rw [List.mem_singleton.mp hm]
        simp
      · rw [if_neg ho] at hm
        simp at hm
    · have := ih (i + 1) j hm
      constructor
      · omega
      · simp only [List.length_cons]
        omega

theorem collectOpt_pairwise :
    ∀ (ns : List PNode) (i : Nat), (collectOpt i ns).Pairwise (· < ·) := by
  intro ns
  induction ns with
  | nil => intro i; simp [collectOpt]
  | cons n ns ih =>
    intro i
    unfold collectOpt
    rw [List.pairwise_append]
    refine ⟨?_, ih (i + 1), ?_⟩
    · by_cases ho : isOptionNode n = true
      · rw [if_pos ho]; simp
      · rw [if_neg ho]; simp
    · intro a ha b hb
      have hb2 := (collectOpt_bounds ns (i + 1) b hb).1
      by_cases ho : isOptionNode n = true
      · rw [if_pos ho] at ha
        rw [List.mem_singleton.mp ha]
        omega
      · rw [if_neg ho] at ha
        simp at ha

theorem collectOpt_mem :
    ∀ (ns : List PNode) (i j : Nat),
      j ∈ collectOpt i ns ↔
        ∃ k, k < ns.length ∧ j = i + k ∧ isOptionNode (ns.getD k default) = true := by
  intro ns
  induction ns with
  | nil =>
    intro i j
    simp [collectOpt]
  | cons n ns ih =>
    intro i j
    unfold collectOpt
    constructor
    · intro hj
      rcases List.mem_append.mp hj with hm | hm
      · by_cases ho : isOptionNode n = true
        · rw [if_pos ho] at hm
          refine ⟨0, by simp, by rw [List.mem_singleton.mp hm]; omega, by simpa using ho⟩
        · rw [if_neg ho] at hm
          simp at hm
      · obtain ⟨k, hk, hjk, hopt⟩ := (ih (i + 1) j).mp hm
        refine ⟨k + 1, by simpa using hk, by omega, by simpa using hopt⟩
    · rintro ⟨k, hk, hjk, hopt⟩
      cases k with
      | zero =>
        apply List.mem_append_left
        have ho : isOptionNode n = true := by simpa using hopt
        rw [if_pos ho]
        simp
        omega
      | succ k1 =>
        apply List.mem_append_right
        refine (ih (i + 1) j).mpr ⟨k1, by simpa using hk, by omega, by simpa using hopt⟩

theorem detectGo_correctIdx_of_none :
    ∀ (ns : List PNode) (i : Nat) (st : DetectSt),
      (∀ p, p < ns.length →
        ¬(isOptionNode (ns.getD p default) = true ∧ hasUnderlineN (ns.getD p default) = true)) →
      (detectGo QuestionType.MCQ i ns st).correctIdx = st.correctIdx := by
  intro ns
  induction ns with
  | nil => intro i st _; rfl
  | cons n ns ih =>
    intro i st h
    unfold detectGo
    rw [ih (i + 1) _ (fun p hp => h (p + 1) (by simpa using hp)),
      detectStep_correctIdx]
    have h0 : ¬(isOptionNode n = true ∧ hasUnderlineN n = true) := by
      simpa using h 0 (by simp)
    rw [if_neg (fun hx => h0 ⟨hx.1, hx.2.2⟩)]

theorem detectGo_correctIdx_found :
    ∀ (ns : List PNode) (i : Nat) (st : DetectSt) (p : Nat), p < ns.length →
      (isOptionNode (ns.getD p default) = true ∧ hasUnderlineN (ns.getD p default) = true) →
      (∀ q, p < q → q < ns.length →
        ¬(isOptionNode (ns.getD q default) = true ∧ hasUnderlineN (ns.getD q default) = true)) →
      (detectGo QuestionType.MCQ i ns st).correctIdx = some (i + p) := by
  intro ns
  induction ns with
  | nil => intro i st p hp; simp at hp
  | cons n ns ih =>
    intro i st p hp hopt hafter
    cases p with
    | zero =>
      unfold detectGo
      rw [detectGo_correctIdx_of_none ns (i + 1) _
        (fun q hq => hafter (q + 1) (by omega) (by simpa using hq))]
      rw [detectStep_correctIdx]
      have ho : isOptionNode n = true ∧ hasUnderlineN n = true := by simpa using hopt
      rw [if_pos ⟨ho.1, rfl, ho.2⟩]
      norm_num
    | succ p1 =>
      unfold detectGo
      have := ih (i + 1) (detectStep QuestionType.MCQ st i n) p1 (by simpa using hp)
        (by simpa using hopt)
        (fun q hq hq2 => hafter (q + 1) (by omega) (by simpa using hq2))
      rw [this]
      congr 1
      omega

end DocxService
namespace DocxService

theorem foldl_set_length {α : Type} :
    ∀ (ps : List (Nat × α)) (l : List α),
      (ps.foldl (fun acc pr => acc.set pr.1 pr.2) l).length = l.length := by
  intro ps
  induction ps with
  | nil => intro l; rfl
  | cons pr ps ih =>
    intro l
    rw [List.foldl_cons, ih, List.length_set]

theorem foldl_set_getD_not_mem {α : Type} (d : α) :
    ∀ (ps : List (Nat × α)) (l : List α) (j : Nat),
      j ∉ ps.map Prod.fst →
      (ps.foldl (fun acc pr => acc.set pr.1 pr.2) l).getD j d = l.getD j d := by
  intro ps
  induction ps with
  | nil => intro l j _; rfl
  | cons pr ps ih =>
    intro l j h
    rw [List.map_cons] at h
    have hne : pr.1 ≠ j := fun he => h (he ▸ List.mem_cons_self _ _)
    rw [List.foldl_cons, ih _ j (fun hm => h (List.mem_cons_of_mem _ hm))]
    rw [List.getD_eq_getElem?_getD, List.getD_eq_getElem?_getD,
      List.getElem?_set_ne hne]

theorem foldl_set_map_getD {α : Type} (d : α) :
    ∀ (ps : List (Nat × α)) (l : List α),
      (ps.map Prod.fst).Nodup →
      (∀ pr ∈ ps, pr.1 < l.length) →
      ps.map (fun pr => (ps.foldl (fun acc pr2 => acc.set pr2.1 pr2.2) l).getD pr.1 d) =
        ps.map Prod.snd := by
  intro ps
  induction ps with
  | nil => intro l _ _; rfl
  | cons pr ps ih =>
    intro l hnd hlt
    rw [List.map_cons] at hnd
    rw [List.map_cons, List.map_cons, List.foldl_cons, List.cons_eq_cons]
    constructor
    · rw [foldl_set_getD_not_mem d ps _ pr.1 (List.nodup_cons.mp hnd).1]
      rw [List.getD_eq_getElem?_getD, List.getElem?_set_self
        (by exact hlt pr (List.mem_cons_self _ _))]
      rfl
    · exact ih (l.set pr.1 pr.2) (List.nodup_cons.mp hnd).2
        (fun q hq => by rw [List.length_set]; exact hlt q (List.mem_cons_of_mem _ hq))

theorem find?_eq_of_first {α : Type} (d : α) {p : α → Bool} :
    ∀ (l : List α) (i : Nat), i < l.length →
      p (l.getD i d) = true →
      (∀ q, q < i → p (l.getD q d) = false) →
      l.find? p = some (l.getD i d) := by
  intro l
  induction l with
  | nil => intro i hi; simp at hi
  | cons x l ih =>
    intro i hi hp hq
    cases i with
    | zero =>
      rw [List.find?_cons_of_pos _ (by simpa using hp)]
      simp
    | succ i1 =>
      have hx : p x = false := by simpa using hq 0 (Nat.succ_pos i1)
      rw [List.find?_cons_of_neg _ (by simp [hx])]
      have := ih i1 (by simpa using hi) (by simpa using hp)
        (fun q hq2 => by simpa using hq (q + 1) (by omega))
      simpa using this

theorem placePinned_length (correct : PNode) (sd : List PNode) (tIdx k : Nat) :
    (placePinned correct sd tIdx k).length = k := by
  simp [placePinned]

theorem placePinned_getD (correct : PNode) (sd : List PNode) (tIdx k p : Nat)
    (hp : p < k) (d : PNode) :
    (placePinned correct sd tIdx k).getD p d =
      (if p = tIdx then correct else sd.getD (if p < tIdx then p else p - 1) correct) := by
  unfold placePinned
  rw [List.getD_eq_getElem _ _ (by simpa using hp)]
  rw [List.getElem_map, List.getElem_range]

theorem placePinned_eq_take_drop (correct : PNode) (sd : List PNode) (tIdx k : Nat)
    (ht : tIdx < k) (hlen : sd.length + 1 = k) :
    placePinned correct sd tIdx k = sd.take tIdx ++ correct :: sd.drop tIdx := by
  have hts : tIdx ≤ sd.length := by omega
  have htake : (sd.take tIdx).length = tIdx := by
    rw [List.length_take]
    omega
  apply List.ext_getElem?
  intro i
  by_cases hik : i < k
  · have hr : (List.range k)[i]? = some i := by
      rw [List.getElem?_eq_getElem (by simpa using hik)]
      rw [List.getElem_range]
    have hL : (placePinned correct sd tIdx k)[i]? =
        some (if i = tIdx then correct else sd.getD (if i < tIdx then i else i - 1) correct) := by
      unfold placePinned
      rw [List.getElem?_map, hr]
      rfl
    rw [hL]
    rcases Nat.lt_trichotomy i tIdx with hlt | heq | hgt
    · rw [List.getElem?_append, htake, if_pos hlt]
      rw [List.getElem?_take, if_pos hlt]
      rw [List.getElem?_eq_getElem (show i < sd.length by omega)]
      rw [if_neg (by omega), if_pos hlt]
      rw [List.getD_eq_getElem sd correct (show i < sd.length by omega)]
    · subst heq
      rw [if_pos rfl]
      rw [List.getElem?_append, htake, if_neg (by omega)]
      rw [Nat.sub_self, List.getElem?_cons_zero]
    · rw [if_neg (by omega), if_neg (by omega)]
      rw [List.getElem?_append, htake, if_neg (by omega)]
      cases hsub : i - tIdx with
      | zero => omega
      | succ m =>
        rw [List.getElem?_cons_succ]
        rw [List.getElem?_drop]
        have him : tIdx + m = i - 1 := by omega
        rw [him]
        rw [List.getElem?_eq_getElem (show i - 1 < sd.length by omega)]
        rw [List.getD_eq_getElem sd correct (show i - 1 < sd.length by omega)]
  · rw [List.getElem?_eq_none (by rw [placePinned_length]; omega)]
    rw [List.getElem?_eq_none (by
      simp only [List.length_append, List.length_cons, List.length_drop, htake]
      omega)]

theorem placePinned_perm (correct : PNode) (sd : List PNode) (tIdx k : Nat)
    (ht : tIdx < k) (hlen : sd.length + 1 = k) :
    (placePinned correct sd tIdx k).Perm (correct :: sd) := by
  rw [placePinned_eq_take_drop correct sd tIdx k ht hlen]
  have := @List.perm_middle _ correct (sd.take tIdx) (sd.drop tIdx)
  rw [List.take_append_drop] at this
  exact this

theorem nodup_filter_ne_perm {α : Type} [DecidableEq α] :
    ∀ {l : List α} {a : α}, l.Nodup → a ∈ l →
      l.Perm (a :: l.filter (fun x => x ≠ a)) := by
  intro l
  induction l with
  | nil => intro a _ ha; simp at ha
  | cons x l ih =>
    intro a hnd ha
    by_cases hxa : x = a
    · subst hxa
      have hnx : x ∉ l := (List.nodup_cons.mp hnd).1
      rw [List.filter_cons_of_neg (by simp)]
      rw [List.filter_eq_self.mpr (fun b hb => by
        simp
        exact fun he => hnx (he ▸ hb))]
    · have hal : a ∈ l := by
        rcases List.mem_cons.mp ha with h | h
        · exact absurd h.symm hxa
        · exact h
      rw [List.filter_cons_of_pos (by simpa using hxa)]
      have step := (ih (List.nodup_cons.mp hnd).2 hal).cons x
      exact step.trans (List.Perm.swap a x _)

end DocxService
namespace DocxService

theorem labelAt_single (type : QuestionType) (i : Nat) (hi : i < 4) :
    ∃ c, labelAt type i = [c] ∧ optLetter c = true := by
  by_cases ht : type = QuestionType.MCQ
  · interval_cases i
    · exact ⟨'A', by unfold labelAt; rw [if_pos ht]; rfl, by decide⟩
    · exact ⟨'B', by unfold labelAt; rw [if_pos ht]; rfl, by decide⟩
    · exact ⟨'C', by unfold labelAt; rw [if_pos ht]; rfl, by decide⟩
    · exact ⟨'D', by unfold labelAt; rw [if_pos ht]; rfl, by decide⟩
  · interval_cases i
    · exact ⟨'a', by unfold labelAt; rw [if_neg ht]; rfl, by decide⟩
    · exact ⟨'b', by unfold labelAt; rw [if_neg ht]; rfl, by decide⟩
    · exact ⟨'c', by unfold labelAt; rw [if_neg ht]; rfl, by decide⟩
    · exact ⟨'d', by unfold labelAt; rw [if_neg ht]; rfl, by decide⟩

theorem content_relabel_labelAt (type : QuestionType) (i : Nat) (hi : i < 4)
    {sep : Char} (hsep : sepChar sep = true) (n : PNode) :
    contentIgnoringLabel (replaceOptionLabel (labelAt type i) sep n) =
      contentIgnoringLabel n := by
  obtain ⟨c, hc1, hc2⟩ := labelAt_single type i hi
  rw [hc1]
  exact contentIgnoringLabel_relabel hc2 hsep n

theorem enumFrom_map_content (type : QuestionType) {sep : Char} (hsep : sepChar sep = true) :
    ∀ (l : List PNode) (i : Nat), i + l.length ≤ 4 →
      ((l.enumFrom i).map
          (fun p => replaceOptionLabel (labelAt type p.1) sep p.2)).map contentIgnoringLabel =
        l.map contentIgnoringLabel := by
  intro l
  induction l with
  | nil => intro i _; rfl
  | cons x l ih =>
    intro i hi
    rw [List.enumFrom_cons, List.map_cons, List.map_cons, List.map_cons]
    rw [List.cons_eq_cons]
    constructor
    · exact content_relabel_labelAt type i (by simp only [List.length_cons] at hi; omega) hsep x
    · exact ih (i + 1) (by simp only [List.length_cons] at hi; omega)

theorem enum_map_content (type : QuestionType) {sep : Char} (hsep : sepChar sep = true)
    (l : List PNode) (hl : l.length ≤ 4) :
    ((l.enum.map (fun p => replaceOptionLabel (labelAt type p.1) sep p.2)).map
        contentIgnoringLabel) = l.map contentIgnoringLabel := by
  rw [List.enum]
  exact enumFrom_map_content type hsep l 0 (by omega)

end DocxService
namespace DocxService

theorem detectOptions_optionIndices (type : QuestionType) (nodes : List PNode) :
    (detectOptions type nodes).optionIndices = collectOpt 0 nodes := by
  unfold detectOptions
  rw [detectGo_optionIndices]
  rfl

theorem detectOptions_pairwise (type : QuestionType) (nodes : List PNode) :
    (detectOptions type nodes).optionIndices.Pairwise (· < ·) := by
  rw [detectOptions_optionIndices]
  exact collectOpt_pairwise nodes 0

theorem detectOptions_nodup (type : QuestionType) (nodes : List PNode) :
    (detectOptions type nodes).optionIndices.Nodup := by
  exact (detectOptions_pairwise type nodes).imp (fun h => Nat.ne_of_lt h)

theorem detectOptions_bounds (type : QuestionType) (nodes : List PNode) :
    ∀ j ∈ (detectOptions type nodes).optionIndices, j < nodes.length := by
  intro j hj
  rw [detectOptions_optionIndices] at hj
  have := (collectOpt_bounds nodes 0 j hj).2
  omega

theorem detectOptions_mem (type : QuestionType) (nodes : List PNode) (j : Nat) :
    j ∈ (detectOptions type nodes).optionIndices ↔
      j < nodes.length ∧ isOptionNode (nodes.getD j default) = true := by
  rw [detectOptions_optionIndices]
  rw [collectOpt_mem nodes 0 j]
  constructor
  · rintro ⟨k, hk, hjk, hopt⟩
    exact ⟨by omega, by rw [hjk]; simpa using hopt⟩
  · rintro ⟨hj, hopt⟩
    exact ⟨j, hj, by omega, hopt⟩

theorem detectOptions_sep (type : QuestionType) (nodes : List PNode) :
    sepChar (detectOptions type nodes).sep = true := by
  unfold detectOptions
  exact detectGo_sep type nodes 0 _ (by decide)

theorem detectOptions_correct_mem (type : QuestionType) (nodes : List PNode) (c : Nat)
    (h : (detectOptions type nodes).correctIdx = some c) :
    c ∈ (detectOptions type nodes).optionIndices := by
  unfold detectOptions at h ⊢
  exact detectGo_inv type nodes 0 _ (fun c2 hc2 => by simp at hc2) c h

theorem shuffleQuestionOptions_eq_writeback (r : Nat → Nat) (nodes : List PNode)
    (type : QuestionType) (target : Option String)
    (hess : ¬ type = QuestionType.ESSAY)
    (hk2 : ¬ (detectOptions type nodes).optionIndices.length < 2) :
    ∃ sh : List PNode,
      sh.Perm ((detectOptions type nodes).optionIndices.map (fun i => nodes.getD i default)) ∧
      shuffleQuestionOptions r nodes type target =
        ((detectOptions type nodes).optionIndices.zip
          (sh.enum.map (fun p => replaceOptionLabel (labelAt type p.1)
            (if type = QuestionType.MCQ then '.' else (detectOptions type nodes).sep) p.2))).foldl
          (fun acc pr => acc.set pr.1 pr.2) nodes := by
  have hk0 : 0 < (detectOptions type nodes).optionIndices.length := by omega
  cases target with
  | none =>
    refine ⟨shuffleArray r
      ((detectOptions type nodes).optionIndices.map (fun i => nodes.getD i default)),
      shuffleArray_perm r _, ?_⟩
    unfold shuffleQuestionOptions
    rw [if_neg hess]
    dsimp only []
    rw [if_neg hk2]
  | some t =>
    cases hci : (detectOptions type nodes).correctIdx with
    | none =>
      refine ⟨shuffleArray r
        ((detectOptions type nodes).optionIndices.map (fun i => nodes.getD i default)),
        shuffleArray_perm r _, ?_⟩
      unfold shuffleQuestionOptions
      rw [if_neg hess]
      dsimp only []
      rw [if_neg hk2, hci]
    | some ci =>
      by_cases hmcq : type = QuestionType.MCQ
      · have hmem : ci ∈ (detectOptions type nodes).optionIndices :=
          detectOptions_correct_mem type nodes ci hci
        have hperm0 :
            (detectOptions type nodes).optionIndices.Perm
              (ci :: (detectOptions type nodes).optionIndices.filter (fun j => j ≠ ci)) :=
          nodup_filter_ne_perm (detectOptions_nodup type nodes) hmem
        have hflen :
            ((detectOptions type nodes).optionIndices.filter (fun j => j ≠ ci)).length + 1 =
              ((detectOptions type nodes).optionIndices.map
                (fun i => nodes.getD i default)).length := by
          rw [List.length_map]
          have := hperm0.length_eq
          rw [List.length_cons] at this
          omega
        have hkpos :
            0 < ((detectOptions type nodes).optionIndices.map
              (fun i => nodes.getD i default)).length := by
          rw [List.length_map]; exact hk0
        refine ⟨placePinned (nodes.getD ci default)
          (shuffleArray r
            (((detectOptions type nodes).optionIndices.filter (fun j => j ≠ ci)).map
              (fun i => nodes.getD i default)))
          (if ((detectOptions type nodes).optionIndices.map
              (fun i => nodes.getD i default)).length ≤ targetMap t
            then targetMap t % ((detectOptions type nodes).optionIndices.map
              (fun i => nodes.getD i default)).length
            else targetMap t)
          ((detectOptions type nodes).optionIndices.map
            (fun i => nodes.getD i default)).length, ?_, ?_⟩
        · have ht : (if ((detectOptions type nodes).optionIndices.map
              (fun i => nodes.getD i default)).length ≤ targetMap t
              then targetMap t % ((detectOptions type nodes).optionIndices.map
                (fun i => nodes.getD i default)).length
              else targetMap t) <
              ((detectOptions type nodes).optionIndices.map
                (fun i => nodes.getD i default)).length := by
            by_cases hle : ((detectOptions type nodes).optionIndices.map
                (fun i => nodes.getD i default)).length ≤ targetMap t
            · rw [if_pos hle]
              exact Nat.mod_lt _ hkpos
            · rw [if_neg hle]
              omega
          have hsdlen : (shuffleArray r
              (((detectOptions type nodes).optionIndices.filter (fun j => j ≠ ci)).map
                (fun i => nodes.getD i default))).length + 1 =
              ((detectOptions type nodes).optionIndices.map
                (fun i => nodes.getD i default)).length := by
            rw [shuffleArray_length, List.length_map]
            rw [List.length_map] at hflen
            rw [List.length_map]
            exact hflen
          refine (placePinned_perm _ _ _ _ ht hsdlen).trans ?_
          refine (List.Perm.cons _ (shuffleArray_perm r _)).trans ?_
          have := (hperm0.map (fun i => nodes.getD i default)).symm
          rw [List.map_cons] at this
          exact this
        · unfold shuffleQuestionOptions
          rw [if_neg hess]
          dsimp only []
          rw [if_neg hk2, hci]
          dsimp only []
          rw [if_pos hmcq]
          rw [if_pos hmcq]
      · refine ⟨shuffleArray r
          ((detectOptions type nodes).optionIndices.map (fun i => nodes.getD i default)),
          shuffleArray_perm r _, ?_⟩
        unfold shuffleQuestionOptions
        rw [if_neg hess]
        dsimp only []
        rw [if_neg hk2, hci]
        dsimp only []
        rw [if_neg hmcq]
        rw [if_neg hmcq]

end DocxService
namespace DocxService

/-- C2: amended round-trip of the option shuffle.  When at most four
option positions are detected, the shuffled node list keeps its
length, keeps every non-option position untouched, and permutes the
multiset of option contents ignoring the label prefix.  (With five or
more detected options the positions from the fifth onward receive the
labels E, F or the word undefined, which the strip step cannot remove,
so the content multiset changes; see the counterexample.) -/
theorem foldl_set_read {α : Type} (optIdx : List Nat) (rel : List α) (l : List α) (d : α)
    (hnodup : optIdx.Nodup) (hbounds : ∀ j ∈ optIdx, j < l.length)
    (hlen : rel.length = optIdx.length) :
    optIdx.map (fun i =>
      ((optIdx.zip rel).foldl (fun acc pr => acc.set pr.1 pr.2) l).getD i d) = rel := by
  have hfst : (optIdx.zip rel).map Prod.fst = optIdx := List.map_fst_zip _ _ (by omega)
  have hsnd : (optIdx.zip rel).map Prod.snd = rel := List.map_snd_zip _ _ (by omega)
  have hmap := foldl_set_map_getD d (optIdx.zip rel) l (by rw [hfst]; exact hnodup)
    (fun pr hpr => hbounds pr.1 (by
      rw [← hfst]
      exact List.mem_map_of_mem Prod.fst hpr))
  calc optIdx.map (fun i =>
        ((optIdx.zip rel).foldl (fun acc pr => acc.set pr.1 pr.2) l).getD i d)
      = ((optIdx.zip rel).map Prod.fst).map (fun i =>
          ((optIdx.zip rel).foldl (fun acc pr => acc.set pr.1 pr.2) l).getD i d) := by
        rw [hfst]
    _ = (optIdx.zip rel).map (fun pr =>
          ((optIdx.zip rel).foldl (fun acc pr2 => acc.set pr2.1 pr2.2) l).getD pr.1 d) := by
        rw [List.map_map]
        exact List.map_congr_left (fun a _ => rfl)
    _ = (optIdx.zip rel).map Prod.snd := hmap
    _ = rel := hsnd

/-- C2: amended round-trip of the option shuffle.  When at most four
option positions are detected, the shuffled node list keeps its
length, keeps every non-option position untouched, and permutes the
multiset of option contents ignoring the label prefix.  (With five or
more detected options the positions from the fifth onward receive the
labels E, F or the word undefined, which the strip step cannot remove,
so the content multiset changes; see the counterexample.) -/
theorem shuffleQuestionOptions_content (r : Nat → Nat) (nodes : List PNode)
    (type : QuestionType) (target : Option String)
    (hk4 : (detectOptions type nodes).optionIndices.length ≤ 4) :
    (shuffleQuestionOptions r nodes type target).length = nodes.length ∧
    (∀ j, j ∉ (detectOptions type nodes).optionIndices →
      (shuffleQuestionOptions r nodes type target).getD j default = nodes.getD j default) ∧
    ((detectOptions type nodes).optionIndices.map
        (fun i => contentIgnoringLabel
          ((shuffleQuestionOptions r nodes type target).getD i default))).Perm
      ((detectOptions type nodes).optionIndices.map
        (fun i => contentIgnoringLabel (nodes.getD i default))) := by
  by_cases hess : type = QuestionType.ESSAY
  · have he : shuffleQuestionOptions r nodes type target = nodes := by
      unfold shuffleQuestionOptions
      rw [if_pos hess]
    rw [he]
    exact ⟨rfl, fun j _ => rfl, List.Perm.refl _⟩
  by_cases hk2 : (detectOptions type nodes).optionIndices.length < 2
  · have he : shuffleQuestionOptions r nodes type target = nodes := by
      unfold shuffleQuestionOptions
      rw [if_neg hess]
      dsimp only []
      rw [if_pos hk2]
    rw [he]
    exact ⟨rfl, fun j _ => rfl, List.Perm.refl _⟩
  obtain ⟨sh, hperm, heq⟩ := shuffleQuestionOptions_eq_writeback r nodes type target hess hk2
  have hshlen : sh.length = (detectOptions type nodes).optionIndices.length := by
    rw [hperm.length_eq, List.length_map]
  have hrel_len :
      (sh.enum.map (fun p => replaceOptionLabel (labelAt type p.1)
        (if type = QuestionType.MCQ then '.' else (detectOptions type nodes).sep) p.2)).length =
      (detectOptions type nodes).optionIndices.length := by
    rw [List.length_map, List.enum_length, hshlen]
  have hread := foldl_set_read (detectOptions type nodes).optionIndices
    (sh.enum.map (fun p => replaceOptionLabel (labelAt type p.1)
      (if type = QuestionType.MCQ then '.' else (detectOptions type nodes).sep) p.2))
    nodes default (detectOptions_nodup type nodes) (detectOptions_bounds type nodes) hrel_len
  refine ⟨by rw [heq]; exact foldl_set_length _ nodes, ?_, ?_⟩
  · intro j hj
    rw [heq]
    apply foldl_set_getD_not_mem
    rw [List.map_fst_zip _ _ (by omega)]
    exact hj
  · have hsepU : sepChar (if type = QuestionType.MCQ then '.'
        else (detectOptions type nodes).sep) = true := by
      by_cases hmcq : type = QuestionType.MCQ
      · rw [if_pos hmcq]; decide
      · rw [if_neg hmcq]; exact detectOptions_sep type nodes
    have hcontent := enum_map_content type hsepU sh (by omega)
    have h1 : (detectOptions type nodes).optionIndices.map
        (fun i => contentIgnoringLabel
          ((shuffleQuestionOptions r nodes type target).getD i default)) =
        sh.map contentIgnoringLabel := by
      rw [← hcontent, ← hread]
      rw [heq]
      rw [List.map_map]
      exact List.map_congr_left (fun a _ => rfl)
    have h2 : (detectOptions type nodes).optionIndices.map
        (fun i => contentIgnoringLabel (nodes.getD i default)) =
        ((detectOptions type nodes).optionIndices.map
          (fun i => nodes.getD i default)).map contentIgnoringLabel := by
      rw [List.map_map]
      exact List.map_congr_left (fun a _ => rfl)
    rw [h1, h2]
    exact hperm.map contentIgnoringLabel

/-- The original round-trip fails on a five-option question: the fifth
option receives the label E, which the strip step cannot remove, so
the multiset of option contents ignoring the label prefix changes. -/
theorem shuffleQuestionOptions_c2_counterexample :
    ¬ (((detectOptions QuestionType.MCQ exC2five).optionIndices.map
        (fun i => contentIgnoringLabel
          ((shuffleQuestionOptions rZero exC2five QuestionType.MCQ none).getD i default))).Perm
      ((detectOptions QuestionType.MCQ exC2five).optionIndices.map
        (fun i => contentIgnoringLabel (exC2five.getD i default)))) := by
  decide

/-- Witness: the amended round-trip at the four-option scenario
question. -/
theorem shuffleQuestionOptions_content_witness :
    (detectOptions QuestionType.MCQ exC1nodes).optionIndices.length ≤ 4 ∧
    ((shuffleQuestionOptions rZero exC1nodes QuestionType.MCQ none).length =
        exC1nodes.length ∧
      (∀ j, j ∉ (detectOptions QuestionType.MCQ exC1nodes).optionIndices →
        (shuffleQuestionOptions rZero exC1nodes QuestionType.MCQ none).getD j default =
          exC1nodes.getD j default) ∧
      ((detectOptions QuestionType.MCQ exC1nodes).optionIndices.map
          (fun i => contentIgnoringLabel
            ((shuffleQuestionOptions rZero exC1nodes QuestionType.MCQ none).getD i default))).Perm
        ((detectOptions QuestionType.MCQ exC1nodes).optionIndices.map
          (fun i => contentIgnoringLabel (exC1nodes.getD i default)))) :=
  ⟨by decide, shuffleQuestionOptions_content rZero exC1nodes QuestionType.MCQ none (by decide)⟩

end DocxService
namespace DocxService

theorem dropWhile_head_false {α : Type} {p : α → Bool} :
    ∀ {l : List α} {x : α} {t : List α}, l.dropWhile p = x :: t → p x = false := by
  intro l
  induction l with
  | nil => intro x t h; simp at h
  | cons y l ih =>
    intro x t h
    by_cases hp : p y = true
    · rw [List.dropWhile_cons_of_pos hp] at h
      exact ih h
    · rw [List.dropWhile_cons_of_neg hp] at h
      injection h with h1 _
      rw [← h1]
      exact Bool.not_eq_true _ |>.mp hp

theorem dropWhile_eq_nil_all {α : Type} {p : α → Bool} {l : List α}
    (h : l.dropWhile p = []) : l.all p = true := by
  rw [List.all_eq_true]
  intro x hx
  exact List.dropWhile_eq_nil_iff.mp h x hx

theorem ws_prefix_peel :
    ∀ (a : List Char) {b p t : List Char} {l : Char},
      a ++ b = p ++ l :: t → a.all isJsWs = true → p.all isJsWs = true →
      isJsWs l = false →
      ∃ p2, p = a ++ p2 ∧ b = p2 ++ l :: t ∧ p2.all isJsWs = true := by
  intro a
  induction a with
  | nil =>
    intro b p t l h _ hp hl
    exact ⟨p, by simp, by simpa using h, hp⟩
  | cons x a ih =>
    intro b p t l h ha hp hl
    cases p with
    | nil =>
      exfalso
      rw [List.nil_append] at h
      rw [List.cons_append] at h
      injection h with h1 _
      rw [List.all_cons] at ha
      rw [h1] at ha
      rw [hl] at ha
      simp at ha
    | cons y p2 =>
      rw [List.cons_append, List.cons_append] at h
      injection h with h1 h2
      rw [List.all_cons] at ha hp
      obtain ⟨p3, e1, e2, e3⟩ := ih h2 (by
        exact (Bool.and_eq_true _ _ |>.mp ha).2) (by
        exact (Bool.and_eq_true _ _ |>.mp hp).2) hl
      exact ⟨p3, by rw [List.cons_append, e1, h1], e2, e3⟩

theorem relabelRun_none_cases {nl : List Char} {sep : Char} {r : Run}
    (h : relabelRun nl sep r = none) :
    r.t = [] ∨ (matchStrict r.t = none ∧ matchLoose r.t = none) := by
  unfold relabelRun at h
  by_cases he : r.t = []
  · exact Or.inl he
  · rw [if_neg he] at h
    cases hms : matchStrict r.t with
    | some m => rw [hms] at h; exact absurd h (by simp)
    | none =>
      rw [hms] at h
      cases hml : matchLoose r.t with
      | some pr =>
        obtain ⟨pre, l, tail⟩ := pr
        rw [hml] at h
        exact absurd h (by simp)
      | none => exact Or.inr ⟨rfl, rfl⟩

theorem stuck_run_all_ws {cs flat : List Char} {m0 : StrictMatch}
    (hdec : cs ++ flat = m0.pre ++ m0.letter :: (m0.mid ++ m0.sep :: m0.rest))
    (hpre : m0.pre.all isJsWs = true) (hlet : optLetter m0.letter = true)
    (hmid : m0.mid.all isJsWs = true) (hsep0 : sepChar m0.sep = true)
    (hms : matchStrict cs = none) (hml : matchLoose cs = none) :
    cs.all isJsWs = true := by
  cases hd : cs.dropWhile isJsWs with
  | nil => exact dropWhile_eq_nil_all hd
  | cons x t1 =>
    exfalso
    have hxw : isJsWs x = false := dropWhile_head_false hd
    have hcs : cs = cs.takeWhile isJsWs ++ (x :: t1) := by
      conv_lhs => rw [← List.takeWhile_append_dropWhile (p := isJsWs) (l := cs)]
      rw [hd]
    have hdec2 : cs.takeWhile isJsWs ++ x :: (t1 ++ flat) =
        m0.pre ++ m0.letter :: (m0.mid ++ m0.sep :: m0.rest) := by
      rw [← hdec]
      conv_rhs => rw [hcs]
      simp
    obtain ⟨hpe, hxe, hte⟩ := ws_cons_eq hdec2 List.all_takeWhile hpre hxw
      (optLetter_not_ws hlet)
    cases hd2 : t1.dropWhile isJsWs with
    | nil =>
      have : matchLoose cs = some (cs.takeWhile isJsWs, x, t1) := by
        apply matchLoose_some_iff.mpr
        exact ⟨hcs, List.all_takeWhile, by rw [hxe]; exact hlet, dropWhile_eq_nil_all hd2⟩
      rw [hml] at this
      exact absurd this (by simp)
    | cons s1 t2 =>
      have hsw : isJsWs s1 = false := dropWhile_head_false hd2
      have ht1 : t1 = t1.takeWhile isJsWs ++ (s1 :: t2) := by
        conv_lhs => rw [← List.takeWhile_append_dropWhile (p := isJsWs) (l := t1)]
        rw [hd2]
      have hdec3 : t1.takeWhile isJsWs ++ s1 :: (t2 ++ flat) =
          m0.mid ++ m0.sep :: m0.rest := by
        rw [← hte]
        conv_rhs => rw [ht1]
        simp
      obtain ⟨hme, hse, _⟩ := ws_cons_eq hdec3 List.all_takeWhile hmid hsw
        (sepChar_not_ws hsep0)
      have : matchStrict cs = some ⟨cs.takeWhile isJsWs, x, t1.takeWhile isJsWs, s1, t2⟩ := by
        apply matchStrict_some_iff.mpr
        refine ⟨?_, List.all_takeWhile, by rw [hxe]; exact hlet, List.all_takeWhile,
          by rw [hse]; exact hsep0⟩
        dsimp only []
        conv_lhs => rw [hcs, ht1]
      rw [hms] at this
      exact absurd this (by simp)

end DocxService
namespace DocxService

theorem relabelRuns_strict_letter {c : Char} (hc : optLetter c = true) {sep : Char}
    (hsep : sepChar sep = true) :
    ∀ (runs : List Run) (m0 : StrictMatch),
      matchStrict ((runs.map Run.t).flatten) = some m0 →
      ∃ m2, matchStrict (((relabelRuns [c] sep runs).map Run.t).flatten) = some m2 ∧
        m2.letter = c := by
  intro runs
  induction runs with
  | nil =>
    intro m0 h
    exfalso
    have hnil := (matchStrict_some_iff.mp h).1
    simp at hnil
  | cons r rs ih =>
    intro m0 h
    rw [List.map_cons, List.flatten_cons] at h
    obtain ⟨hdec, hpre, hlet, hmid, hsep0⟩ := matchStrict_some_iff.mp h
    unfold relabelRuns
    cases hrel : relabelRun [c] sep r with
    | some r2 =>
      rw [List.map_cons, List.flatten_cons]
      unfold relabelRun at hrel
      by_cases hemp : r.t = []
      · rw [if_pos hemp] at hrel
        exact absurd hrel (by simp)
      rw [if_neg hemp] at hrel
      cases hms : matchStrict r.t with
      | some m =>
        rw [hms] at hrel
        dsimp only [] at hrel
        injection hrel with hrel2
        obtain ⟨hdm, hpm, _, _, _⟩ := matchStrict_some_iff.mp hms
        refine ⟨⟨m.pre, c, [], sep, m.rest ++ (rs.map Run.t).flatten⟩, ?_, rfl⟩
        apply matchStrict_some_iff.mpr
        refine ⟨?_, hpm, hc, by simp, hsep⟩
        rw [← hrel2]
        dsimp only []
        simp
      | none =>
        rw [hms] at hrel
        cases hml : matchLoose r.t with
        | none =>
          rw [hml] at hrel
          exact absurd hrel (by simp)
        | some pr =>
          obtain ⟨pre, l, tail⟩ := pr
          rw [hml] at hrel
          dsimp only [] at hrel
          injection hrel with hrel2
          obtain ⟨hdl, hpl, hll, _⟩ := matchLoose_some_iff.mp hml
          have hdec2 : pre ++ l :: (tail ++ (rs.map Run.t).flatten) =
              m0.pre ++ m0.letter :: (m0.mid ++ m0.sep :: m0.rest) := by
            rw [← hdec]
            conv_rhs => rw [hdl]
            simp
          obtain ⟨hpe, hle, hte⟩ := ws_cons_eq hdec2 hpl hpre (optLetter_not_ws hll)
            (optLetter_not_ws hlet)
          refine ⟨⟨pre, c, m0.mid, m0.sep, m0.rest⟩, ?_, rfl⟩
          apply matchStrict_some_iff.mpr
          refine ⟨?_, hpl, hc, hmid, hsep0⟩
          rw [← hrel2]
          dsimp only []
          have hstep : (pre ++ [c] ++ tail) ++ (rs.map Run.t).flatten =
              pre ++ c :: (tail ++ (rs.map Run.t).flatten) := by simp
          rw [hstep, hte]
    | none =>
      have hcases := relabelRun_none_cases hrel
      have hws : r.t.all isJsWs = true := by
        rcases hcases with hemp | ⟨hms, hml⟩
        · rw [hemp]; rfl
        · exact stuck_run_all_ws hdec hpre hlet hmid hsep0 hms hml
      obtain ⟨p2, hp2, hfl, hp2w⟩ := ws_prefix_peel r.t hdec hws hpre (optLetter_not_ws hlet)
      have hrec : matchStrict ((rs.map Run.t).flatten) =
          some ⟨p2, m0.letter, m0.mid, m0.sep, m0.rest⟩ :=
        matchStrict_some_iff.mpr ⟨hfl, hp2w, hlet, hmid, hsep0⟩
      obtain ⟨m2, hm2, hm2c⟩ := ih _ hrec
      rw [List.map_cons, List.flatten_cons]
      obtain ⟨hd2, hp2b, hl2, hm2m, hs2⟩ := matchStrict_some_iff.mp hm2
      refine ⟨⟨r.t ++ m2.pre, m2.letter, m2.mid, m2.sep, m2.rest⟩, ?_, hm2c⟩
      apply matchStrict_some_iff.mpr
      refine ⟨?_, ?_, hl2, hm2m, hs2⟩
      · rw [hd2]
        simp
      · rw [List.all_append]
        rw [hws, hp2b]
        rfl

theorem matchStrict_relabel {c : Char} (hc : optLetter c = true) {sep : Char}
    (hsep : sepChar sep = true) (n : PNode)
    (hm : (matchStrict (nodeText n)).isSome = true) :
    ∃ m2, matchStrict (nodeText (replaceOptionLabel [c] sep n)) = some m2 ∧
      m2.letter = c := by
  obtain ⟨m0, hm0⟩ := Option.isSome_iff_exists.mp hm
  unfold nodeText at hm0
  unfold nodeText replaceOptionLabel
  exact relabelRuns_strict_letter hc hsep n.runs m0 hm0

end DocxService
namespace DocxService

theorem map_getD_eq {α β : Type} {f : α → β} {l : List α} {res : List β}
    (h : l.map f = res) {p : Nat} (hp : p < l.length) (d : α) (d2 : β) :
    f (l.getD p d) = res.getD p d2 := by
  subst h
  rw [List.getD_eq_getElem _ _ hp]
  rw [List.getD_eq_getElem _ _ (by simpa using hp)]
  rw [List.getElem_map]

theorem enum_map_getD {α β : Type} (l : List α) (F : Nat × α → β) (p : Nat)
    (hp : p < l.length) (d : α) (d2 : β) :
    (l.enum.map F).getD p d2 = F (p, l.getD p d) := by
  rw [List.getD_eq_getElem _ _ (by simp [hp]), List.getElem_map, List.getElem_enum]
  rw [List.getD_eq_getElem _ _ hp]

theorem shuffleQuestionOptions_mcq_pinned (r : Nat → Nat) (nodes : List PNode)
    (t : String) (ci : Nat)
    (hk2 : ¬ (detectOptions QuestionType.MCQ nodes).optionIndices.length < 2)
    (hci : (detectOptions QuestionType.MCQ nodes).correctIdx = some ci) :
    shuffleQuestionOptions r nodes QuestionType.MCQ (some t) =
      ((detectOptions QuestionType.MCQ nodes).optionIndices.zip
        ((placePinned (nodes.getD ci default)
          (shuffleArray r
            (((detectOptions QuestionType.MCQ nodes).optionIndices.filter
              (fun q => q ≠ ci)).map (fun i => nodes.getD i default)))
          (if ((detectOptions QuestionType.MCQ nodes).optionIndices.map
              (fun i => nodes.getD i default)).length ≤ targetMap t
            then targetMap t % ((detectOptions QuestionType.MCQ nodes).optionIndices.map
              (fun i => nodes.getD i default)).length
            else targetMap t)
          ((detectOptions QuestionType.MCQ nodes).optionIndices.map
            (fun i => nodes.getD i default)).length).enum.map
          (fun p => replaceOptionLabel (labelAt QuestionType.MCQ p.1) '.' p.2))).foldl
        (fun acc pr => acc.set pr.1 pr.2) nodes := by
  unfold shuffleQuestionOptions
  rw [if_neg (by decide : ¬ QuestionType.MCQ = QuestionType.ESSAY)]
  dsimp only []
  rw [if_neg hk2, hci]
  dsimp only []
  rw [if_pos rfl]
  rw [if_pos rfl]

end DocxService
namespace DocxService

/-- C3: amended pinning round-trip.  For a multiple-choice question
with at least two detected option nodes, all of them matching the
strict option pattern, exactly one of them underlined, and a target
label among the four answer letters whose position is below the
option count, resolving the answer from the shuffled nodes returns
exactly the target label.  (With a single option node the shuffle
returns the nodes unchanged and the resolver reads the original
letter; see the counterexample.) -/
theorem shuffleQuestionOptions_resolves_target (r : Nat → Nat) (nodes : List PNode)
    (orig : List Char) (L : String) (j : Nat)
    (hL : L ∈ optionLetters)
    (hk2 : 2 ≤ (detectOptions QuestionType.MCQ nodes).optionIndices.length)
    (htm : targetMap L < (detectOptions QuestionType.MCQ nodes).optionIndices.length)
    (hstrict : ∀ i ∈ (detectOptions QuestionType.MCQ nodes).optionIndices,
      (matchStrict (nodeText (nodes.getD i default))).isSome = true)
    (hj : j < nodes.length)
    (hjopt : isOptionNode (nodes.getD j default) = true)
    (hju : hasUnderlineN (nodes.getD j default) = true)
    (huniq : ∀ q, q < nodes.length → q ≠ j →
      ¬(isOptionNode (nodes.getD q default) = true ∧
        hasUnderlineN (nodes.getD q default) = true)) :
    getAnswerFromNodes (shuffleQuestionOptions r nodes QuestionType.MCQ (some L))
      QuestionType.MCQ orig = L := by
  have hci : (detectOptions QuestionType.MCQ nodes).correctIdx = some j := by
    unfold detectOptions
    have := detectGo_correctIdx_found nodes 0 ⟨[], none, '.'⟩ j hj ⟨hjopt, hju⟩
      (fun q _ hq2 hqq => huniq q hq2 (by omega) hqq)
    simpa using this
  have hjmem : j ∈ (detectOptions QuestionType.MCQ nodes).optionIndices :=
    (detectOptions_mem QuestionType.MCQ nodes j).mpr ⟨hj, hjopt⟩
  have heq := shuffleQuestionOptions_mcq_pinned r nodes L j (by omega) hci
  rw [List.length_map] at heq
  rw [if_neg (by omega : ¬ (detectOptions QuestionType.MCQ nodes).optionIndices.length ≤ targetMap L)] at heq
  have hdlen : ((detectOptions QuestionType.MCQ nodes).optionIndices.filter (fun q => q ≠ j)).length + 1 = (detectOptions QuestionType.MCQ nodes).optionIndices.length := by
    have hp0 := nodup_filter_ne_perm (detectOptions_nodup QuestionType.MCQ nodes) hjmem
    have hle := hp0.length_eq
    rw [List.length_cons] at hle
    omega
  have hsdlen : (shuffleArray r (((detectOptions QuestionType.MCQ nodes).optionIndices.filter (fun q => q ≠ j)).map (fun i => nodes.getD i default))).length + 1 = (detectOptions QuestionType.MCQ nodes).optionIndices.length := by
    rw [shuffleArray_length, List.length_map]
    exact hdlen
  have hsdu : ∀ x ∈ shuffleArray r (((detectOptions QuestionType.MCQ nodes).optionIndices.filter (fun q => q ≠ j)).map (fun i => nodes.getD i default)), hasUnderlineN x = false := by
    intro x hx
    have hx2 : x ∈ ((detectOptions QuestionType.MCQ nodes).optionIndices.filter (fun q => q ≠ j)).map (fun i => nodes.getD i default) :=
      ((shuffleArray_perm r _).mem_iff).mp hx
    obtain ⟨q, hqf, hxq⟩ := List.mem_map.mp hx2
    obtain ⟨hqm, hqne⟩ := List.mem_filter.mp hqf
    have hqlen : q < nodes.length := detectOptions_bounds QuestionType.MCQ nodes q hqm
    have hqopt : isOptionNode (nodes.getD q default) = true :=
      ((detectOptions_mem QuestionType.MCQ nodes q).mp hqm).2
    have hqnej : q ≠ j := by simpa using hqne
    cases hu : hasUnderlineN (nodes.getD q default) with
    | false => rw [← hxq]; exact hu
    | true => exact absurd ⟨hqopt, hu⟩ (huniq q hqlen hqnej)
  have hrel_len : ((placePinned (nodes.getD j default) (shuffleArray r (((detectOptions QuestionType.MCQ nodes).optionIndices.filter (fun q => q ≠ j)).map (fun i => nodes.getD i default))) (targetMap L) (detectOptions QuestionType.MCQ nodes).optionIndices.length).enum.map (fun p => replaceOptionLabel (labelAt QuestionType.MCQ p.1) '.' p.2)).length = (detectOptions QuestionType.MCQ nodes).optionIndices.length := by
    rw [List.length_map, List.enum_length, placePinned_length]
  have hread := foldl_set_read (detectOptions QuestionType.MCQ nodes).optionIndices ((placePinned (nodes.getD j default) (shuffleArray r (((detectOptions QuestionType.MCQ nodes).optionIndices.filter (fun q => q ≠ j)).map (fun i => nodes.getD i default))) (targetMap L) (detectOptions QuestionType.MCQ nodes).optionIndices.length).enum.map (fun p => replaceOptionLabel (labelAt QuestionType.MCQ p.1) '.' p.2)) nodes default
    (detectOptions_nodup QuestionType.MCQ nodes)
    (detectOptions_bounds QuestionType.MCQ nodes) hrel_len
  have hout_len : (shuffleQuestionOptions r nodes QuestionType.MCQ (some L)).length = nodes.length := by
    rw [heq]
    exact foldl_set_length _ nodes
  have his_mem : (detectOptions QuestionType.MCQ nodes).optionIndices.getD (targetMap L) 0 ∈ (detectOptions QuestionType.MCQ nodes).optionIndices := by
    rw [List.getD_eq_getElem _ _ htm]
    exact List.getElem_mem _
  have his_len : (detectOptions QuestionType.MCQ nodes).optionIndices.getD (targetMap L) 0 < nodes.length :=
    detectOptions_bounds QuestionType.MCQ nodes _ his_mem
  have hlab : ∃ c, labelAt QuestionType.MCQ (targetMap L) = [c] ∧ optLetter c = true ∧
      String.singleton c.toUpper = L := by
    have hL4 : L = "A" ∨ L = "B" ∨ L = "C" ∨ L = "D" := by
      simpa [optionLetters] using hL
    rcases hL4 with h | h | h | h <;> subst h
    · exact ⟨'A', by decide, by decide, by decide⟩
    · exact ⟨'B', by decide, by decide, by decide⟩
    · exact ⟨'C', by decide, by decide, by decide⟩
    · exact ⟨'D', by decide, by decide, by decide⟩
  obtain ⟨c, hc1, hc2, hc3⟩ := hlab
  have htarget_node : (shuffleQuestionOptions r nodes QuestionType.MCQ (some L)).getD ((detectOptions QuestionType.MCQ nodes).optionIndices.getD (targetMap L) 0) default =
      replaceOptionLabel [c] '.' (nodes.getD j default) := by
    rw [heq]
    have h1 : (((detectOptions QuestionType.MCQ nodes).optionIndices.zip ((placePinned (nodes.getD j default) (shuffleArray r (((detectOptions QuestionType.MCQ nodes).optionIndices.filter (fun q => q ≠ j)).map (fun i => nodes.getD i default))) (targetMap L) (detectOptions QuestionType.MCQ nodes).optionIndices.length).enum.map (fun p => replaceOptionLabel (labelAt QuestionType.MCQ p.1) '.' p.2))).foldl (fun acc pr => acc.set pr.1 pr.2) nodes).getD ((detectOptions QuestionType.MCQ nodes).optionIndices.getD (targetMap L) 0) default = ((placePinned (nodes.getD j default) (shuffleArray r (((detectOptions QuestionType.MCQ nodes).optionIndices.filter (fun q => q ≠ j)).map (fun i => nodes.getD i default))) (targetMap L) (detectOptions QuestionType.MCQ nodes).optionIndices.length).enum.map (fun p => replaceOptionLabel (labelAt QuestionType.MCQ p.1) '.' p.2)).getD (targetMap L) default :=
      map_getD_eq hread htm 0 default
    rw [h1]
    rw [enum_map_getD (placePinned (nodes.getD j default) (shuffleArray r (((detectOptions QuestionType.MCQ nodes).optionIndices.filter (fun q => q ≠ j)).map (fun i => nodes.getD i default))) (targetMap L) (detectOptions QuestionType.MCQ nodes).optionIndices.length) (fun p => replaceOptionLabel (labelAt QuestionType.MCQ p.1) '.' p.2) (targetMap L)
      (by rw [placePinned_length]; exact htm) default default]
    show replaceOptionLabel (labelAt QuestionType.MCQ (targetMap L)) '.'
      ((placePinned (nodes.getD j default) (shuffleArray r (((detectOptions QuestionType.MCQ nodes).optionIndices.filter (fun q => q ≠ j)).map (fun i => nodes.getD i default))) (targetMap L) (detectOptions QuestionType.MCQ nodes).optionIndices.length).getD (targetMap L) default) =
      replaceOptionLabel [c] '.' (nodes.getD j default)
    rw [placePinned_getD _ _ _ _ _ htm default]
    rw [if_pos rfl, hc1]
  have hstrict_j := hstrict j hjmem
  obtain ⟨m2, hm2, hm2c⟩ := matchStrict_relabel hc2 (by decide : sepChar '.' = true)
    (nodes.getD j default) hstrict_j
  have htu : optUnderlined ((shuffleQuestionOptions r nodes QuestionType.MCQ (some L)).getD ((detectOptions QuestionType.MCQ nodes).optionIndices.getD (targetMap L) 0) default) = true := by
    rw [htarget_node]
    unfold optUnderlined
    rw [hm2, hasUnderlineN_relabel, hju]
    rfl
  have hbefore : ∀ q, q < (detectOptions QuestionType.MCQ nodes).optionIndices.getD (targetMap L) 0 →
      optUnderlined ((shuffleQuestionOptions r nodes QuestionType.MCQ (some L)).getD q default) = false := by
    intro q hq
    by_cases hqm : q ∈ (detectOptions QuestionType.MCQ nodes).optionIndices
    · obtain ⟨p2, hp2, hpq⟩ := List.mem_iff_getElem.mp hqm
      have hp2ne : p2 ≠ targetMap L := by
        intro he
        subst he
        have hqe : q = (detectOptions QuestionType.MCQ nodes).optionIndices.getD (targetMap L) 0 := by
          rw [List.getD_eq_getElem _ _ htm]
          exact hpq.symm
        omega
      have hq_node : (shuffleQuestionOptions r nodes QuestionType.MCQ (some L)).getD q default =
          replaceOptionLabel (labelAt QuestionType.MCQ p2) '.'
            ((placePinned (nodes.getD j default) (shuffleArray r (((detectOptions QuestionType.MCQ nodes).optionIndices.filter (fun q => q ≠ j)).map (fun i => nodes.getD i default))) (targetMap L) (detectOptions QuestionType.MCQ nodes).optionIndices.length).getD p2 default) := by
        rw [heq]
        have hq0 : (detectOptions QuestionType.MCQ nodes).optionIndices.getD p2 0 = q := by
          rw [List.getD_eq_getElem _ _ hp2]
          exact hpq
        have h1 : (((detectOptions QuestionType.MCQ nodes).optionIndices.zip ((placePinned (nodes.getD j default) (shuffleArray r (((detectOptions QuestionType.MCQ nodes).optionIndices.filter (fun q => q ≠ j)).map (fun i => nodes.getD i default))) (targetMap L) (detectOptions QuestionType.MCQ nodes).optionIndices.length).enum.map (fun p => replaceOptionLabel (labelAt QuestionType.MCQ p.1) '.' p.2))).foldl (fun acc pr => acc.set pr.1 pr.2) nodes).getD q default = ((placePinned (nodes.getD j default) (shuffleArray r (((detectOptions QuestionType.MCQ nodes).optionIndices.filter (fun q => q ≠ j)).map (fun i => nodes.getD i default))) (targetMap L) (detectOptions QuestionType.MCQ nodes).optionIndices.length).enum.map (fun p => replaceOptionLabel (labelAt QuestionType.MCQ p.1) '.' p.2)).getD p2 default := by
          rw [← hq0]
          exact map_getD_eq hread hp2 0 default
        rw [h1]
        exact enum_map_getD (placePinned (nodes.getD j default) (shuffleArray r (((detectOptions QuestionType.MCQ nodes).optionIndices.filter (fun q => q ≠ j)).map (fun i => nodes.getD i default))) (targetMap L) (detectOptions QuestionType.MCQ nodes).optionIndices.length) (fun p => replaceOptionLabel (labelAt QuestionType.MCQ p.1) '.' p.2) p2
          (by rw [placePinned_length]; omega) default default
      rw [hq_node]
      unfold optUnderlined
      rw [hasUnderlineN_relabel]
      rw [placePinned_getD _ _ _ _ p2 (by omega) default]
      rw [if_neg hp2ne]
      have hidx : (if p2 < targetMap L then p2 else p2 - 1) < (shuffleArray r (((detectOptions QuestionType.MCQ nodes).optionIndices.filter (fun q => q ≠ j)).map (fun i => nodes.getD i default))).length := by
        by_cases hx : p2 < targetMap L
        · rw [if_pos hx]; omega
        · rw [if_neg hx]; omega
      have hmem_sd : (shuffleArray r (((detectOptions QuestionType.MCQ nodes).optionIndices.filter (fun q => q ≠ j)).map (fun i => nodes.getD i default))).getD (if p2 < targetMap L then p2 else p2 - 1)
          (nodes.getD j default) ∈ (shuffleArray r (((detectOptions QuestionType.MCQ nodes).optionIndices.filter (fun q => q ≠ j)).map (fun i => nodes.getD i default))) := by
        rw [List.getD_eq_getElem _ _ hidx]
        exact List.getElem_mem _
      rw [hsdu _ hmem_sd, Bool.and_false]
    · have hq_node : (shuffleQuestionOptions r nodes QuestionType.MCQ (some L)).getD q default = nodes.getD q default := by
        rw [heq]
        apply foldl_set_getD_not_mem
        rw [List.map_fst_zip _ _ (by omega)]
        exact hqm
      rw [hq_node]
      have hqlen : q < nodes.length := by omega
      have hnopt : ¬ isOptionNode (nodes.getD q default) = true := by
        intro ho
        exact hqm ((detectOptions_mem QuestionType.MCQ nodes q).mpr ⟨hqlen, ho⟩)
      unfold optUnderlined
      have hss : (matchStrict (nodeText (nodes.getD q default))).isSome = false := by
        cases hs : (matchStrict (nodeText (nodes.getD q default))).isSome
        · rfl
        · exfalso
          apply hnopt
          unfold isOptionNode
          rw [hs]
          rfl
      rw [hss, Bool.false_and]
  have hfind : (shuffleQuestionOptions r nodes QuestionType.MCQ (some L)).find? optUnderlined = some ((shuffleQuestionOptions r nodes QuestionType.MCQ (some L)).getD ((detectOptions QuestionType.MCQ nodes).optionIndices.getD (targetMap L) 0) default) :=
    find?_eq_of_first default (shuffleQuestionOptions r nodes QuestionType.MCQ (some L)) ((detectOptions QuestionType.MCQ nodes).optionIndices.getD (targetMap L) 0)
      (by rw [hout_len]; exact his_len) htu hbefore
  obtain ⟨m3, hm3, hloop⟩ := mcqAnswerLoop_find (shuffleQuestionOptions r nodes QuestionType.MCQ (some L)) "" 0
    ((shuffleQuestionOptions r nodes QuestionType.MCQ (some L)).getD ((detectOptions QuestionType.MCQ nodes).optionIndices.getD (targetMap L) 0) default) hfind
  have hnd : matchStrict (nodeText ((shuffleQuestionOptions r nodes QuestionType.MCQ (some L)).getD ((detectOptions QuestionType.MCQ nodes).optionIndices.getD (targetMap L) 0) default)) = some m2 := by
    rw [htarget_node]
    exact hm2
  rw [hnd] at hm3
  injection hm3 with hm32
  unfold getAnswerFromNodes
  dsimp only []
  rw [hloop, ← hm32, hm2c]
  exact hc3

end DocxService
namespace DocxService

/-- The original pinning claim fails with a single detected option
node: every hypothesis of the claim holds, yet the shuffle leaves the
nodes unchanged (fewer than two options) and the resolver reads the
original letter B although the target label was A. -/
theorem shuffleQuestionOptions_c3_counterexample :
    ("A" ∈ optionLetters ∧
     targetMap "A" < (detectOptions QuestionType.MCQ exC3one).optionIndices.length ∧
     (∀ i ∈ (detectOptions QuestionType.MCQ exC3one).optionIndices,
       (matchStrict (nodeText (exC3one.getD i default))).isSome = true) ∧
     1 < exC3one.length ∧
     isOptionNode (exC3one.getD 1 default) = true ∧
     hasUnderlineN (exC3one.getD 1 default) = true ∧
     (∀ q, q < exC3one.length → q ≠ 1 →
       ¬(isOptionNode (exC3one.getD q default) = true ∧
         hasUnderlineN (exC3one.getD q default) = true))) ∧
    ¬ getAnswerFromNodes (shuffleQuestionOptions rZero exC3one QuestionType.MCQ (some "A"))
        QuestionType.MCQ [] = "A" := by
  decide

/-- Witness: the amended pinning round-trip at the four-option
scenario question with underlined option C and target label B. -/
theorem shuffleQuestionOptions_resolves_target_witness :
    "B" ∈ optionLetters ∧
    2 ≤ (detectOptions QuestionType.MCQ exC1nodes).optionIndices.length ∧
    targetMap "B" < (detectOptions QuestionType.MCQ exC1nodes).optionIndices.length ∧
    (∀ i ∈ (detectOptions QuestionType.MCQ exC1nodes).optionIndices,
      (matchStrict (nodeText (exC1nodes.getD i default))).isSome = true) ∧
    3 < exC1nodes.length ∧
    isOptionNode (exC1nodes.getD 3 default) = true ∧
    hasUnderlineN (exC1nodes.getD 3 default) = true ∧
    (∀ q, q < exC1nodes.length → q ≠ 3 →
      ¬(isOptionNode (exC1nodes.getD q default) = true ∧
        hasUnderlineN (exC1nodes.getD q default) = true)) ∧
    getAnswerFromNodes (shuffleQuestionOptions rZero exC1nodes QuestionType.MCQ (some "B"))
      QuestionType.MCQ [] = "B" :=
  ⟨by decide, by decide, by decide, by decide, by decide, by decide, by decide, by decide,
    shuffleQuestionOptions_resolves_target rZero exC1nodes [] "B" 3 (by decide) (by decide)
      (by decide) (by decide) (by decide) (by decide) (by decide) (by decide)⟩

end DocxService
